import Mathlib
/-!
# Verification of `impactlab_tools.utils.weighting`

Shallow embedding of the three functions of
`src/impactlab_tools/utils/weighting.py`:

* `weighted_quantile_1d`  — the 1-D weighted-quantile estimator,
* `weighted_quantile`     — its axis-wise generalization over N-D arrays
                            (delegating to `np.apply_along_axis`),
* `weighted_quantile_xr`  — the labeled (xarray) wrapper.

Modelling conventions:

* Machine floats are modelled as exact rationals (`ℚ`).  A numpy float
  division of a whole position array by a zero denominator produces
  non-finite entries (NaN/±inf) together with a `RuntimeWarning` — it does
  NOT raise.  Exact rationals cannot represent non-finite values, so a call
  whose position array was divided by zero (and whose result is then
  computed from those non-finite positions) is summarized by the outcome
  marker `Res.nonFinite`; the structural checks `np.interp` performs before
  touching any entry (empty `xp`, `len(xp) != len(fp)`) and the case of an
  empty query vector (where no poisoned entry is ever read and numpy
  returns an empty array) are modelled faithfully before the marker applies.
* The exceptions the Python code can actually raise are
  `AssertionError` (the quantile-range assert), `IndexError`
  (fancy indexing out of bounds / `weighted_quantiles[0]` on an empty
  array) and `ValueError` (raised by `np.interp`).  There is no other
  raise site in the source.
* `np.argsort` (default kind) is modelled as a stable sort of the
  (value, weight) pairs by value.  numpy's default introsort degenerates
  to a stable insertion sort below 17 elements, which covers every
  concrete input used below; all universally-quantified theorems proved
  here are additionally independent of how the sort breaks ties.
* `np.interp` is modelled knot by knot after
  `numpy/core/src/multiarray/compiled_base.c` (`arr_interp`): clamp for
  queries outside `[xp[0], xp[-1]]`, otherwise locate the rightmost index
  `j` with `xp[j] <= x` and either return `fp[j]` (exact hit or last
  index) or linearly interpolate on the segment `[xp[j], xp[j+1]]`.
-/


/-- Outcome of a call into the weighting routines.  `ok` is a normal
return; `assertError`, `indexError`, `valueError` are the exceptions the
Python source can raise; `nonFinite` marks a normal return whose payload
was computed from a position array that numpy divided by zero (see the
module docstring); `unmodelled` covers source paths no claim exercises
(rank-0 input, an N-D input with `axis=None`, an axis out of range). -/
inductive Res (α : Type) where
  | ok (val : α)
  | assertError
  | indexError
  | valueError
  | keyError
  | nonFinite
  | unmodelled
  deriving DecidableEq

/-- `np.cumsum` on a rational vector. -/
def cumsum : List ℚ → List ℚ
  | [] => []
  | x :: xs => x :: (cumsum xs).map (x + ·)

/-- The adjusted positions `np.cumsum(sample_weight) - 0.5 * sample_weight`
(line 206 of the source): each observation sits at the midpoint of its own
weight mass. -/
def wqPositions (w : List ℚ) : List ℚ :=
  List.zipWith (fun c x => c - x / 2) (cumsum w) w

/-- Knot walk of `np.interp` for a query `x` known to satisfy
`x ≥ (current knot).1`: advance while the next knot position is still
`≤ x`; on the segment, return the knot value on an exact hit, otherwise
interpolate linearly; at the last knot return its value. -/
def npInterpGo (x : ℚ) : ℚ × ℚ → List (ℚ × ℚ) → ℚ
  | (_, v1), [] => v1
  | (p1, v1), (p2, v2) :: rest =>
      if x < p2 then
        if p1 = x then v1
        else v1 + (v2 - v1) / (p2 - p1) * (x - p1)
      else npInterpGo x (p2, v2) rest

/-- `np.interp` for one query point over a knot list `xp.zip fp`
(empty knot lists are rejected by `interpCall` before this is reached). -/
def npInterpOne (x : ℚ) (knots : List (ℚ × ℚ)) : ℚ :=
  match knots with
  | [] => 0
  | k0 :: rest =>
      let kl := ((k0 :: rest).getLast?).getD k0
      if kl.1 < x then kl.2
      else if x < k0.1 then k0.2
      else npInterpGo x k0 rest

/-- `np.interp(quantiles, xp, fp)` (line 218) including the checks the C
routine performs before reading any entry: empty `xp` and mismatched
lengths raise `ValueError`.  `xpFinite = false` records that `xp` was
produced by a division by zero; when at least one query exists the call
then returns data computed from non-finite positions (`Res.nonFinite`),
while an empty query vector still returns the empty array. -/
def interpCall (quantiles xp fp : List ℚ) (xpFinite : Bool) : Res (List ℚ) :=
  if xp = [] then .valueError
  else if xp.length ≠ fp.length then .valueError
  else if xpFinite = false ∧ quantiles ≠ [] then .nonFinite
  else .ok (quantiles.map (fun q => npInterpOne q (xp.zip fp)))

/-- Positions, normalization and interpolation — lines 206–218 of the
source, applied to the (already sorted, when applicable) values `v` and
weights `w`.  In legacy mode the positions are shifted by their first
entry (an `IndexError` on an empty array) and divided by their (shifted)
last entry; otherwise they are divided by the total weight. -/
def finishQuantile (v w quantiles : List ℚ) (old_style : Bool) : Res (List ℚ) :=
  let wq := wqPositions w
  if old_style then
    match wq.head?, wq.getLast? with
    | some p0, some plast =>
        interpCall quantiles ((wq.map (· - p0)).map (· / (plast - p0))) v
          (decide (plast - p0 ≠ 0))
    | _, _ => .indexError
  else
    interpCall quantiles (wq.map (· / w.sum)) v (decide (w.sum ≠ 0))

/-- Comparison of (value, weight) pairs by value; models sorting by
`np.argsort(values)` while carrying each weight with its paired value. -/
def pairLE (a b : ℚ × ℚ) : Prop := a.1 ≤ b.1

instance : DecidableRel pairLE := fun a b => inferInstanceAs (Decidable (a.1 ≤ b.1))

instance : IsTotal (ℚ × ℚ) pairLE := ⟨fun a b => le_total a.1 b.1⟩

instance : IsTrans (ℚ × ℚ) pairLE := ⟨fun _ _ _ h1 h2 => le_trans h1 h2⟩

/-- Lines 202–204 of the source:
`sorter = np.argsort(values); values = values[sorter];
sample_weight = sample_weight[sorter]`, as a stable sort of the value/weight
pairs.  (When `sample_weight` is longer than `values`, `values.zip w`
restricts to the first `values.length` weights, exactly as the fancy
indexing `sample_weight[sorter]` does, the sorter's entries all being
`< len(values)`.) -/
def sortPairs (values w : List ℚ) : List (ℚ × ℚ) :=
  List.insertionSort pairLE (values.zip w)

/-- Shallow embedding of `weighted_quantile_1d` (lines 142–220).
`sample_weight = none` models the Python default `None` (uniform weights);
the quantile-range assert fails with `AssertionError`; in the unsorted
path, a weight vector shorter than the value vector makes the fancy
indexing `sample_weight[sorter]` raise `IndexError` (its index set is all
of `0..len(values)-1`). -/
def weighted_quantile_1d (values quantiles : List ℚ)
    (sample_weight : Option (List ℚ)) (values_sorted old_style : Bool) :
    Res (List ℚ) :=
  let w := sample_weight.getD (List.replicate values.length 1)
  if ∀ q ∈ quantiles, 0 ≤ q ∧ q ≤ 1 then
    if values_sorted then
      finishQuantile values w quantiles old_style
    else if w.length < values.length then .indexError
    else
      let s := sortPairs values w
      finishQuantile (s.map Prod.fst) (s.map Prod.snd) quantiles old_style
  else .assertError

/-- The spec's reference function for C7 (the source delegates the
unweighted convention to `np.percentile`, an external collaborator):
the classic unweighted linear-interpolation percentile, obtained by
interpolating at fractional index `q * (n - 1)` into the ascending-sorted
values. -/
def classic_percentile_spec (values : List ℚ) (q : ℚ) : ℚ :=
  npInterpOne (q * ((values.length : ℚ) - 1))
    ((List.map (fun i : ℕ => (i : ℚ)) (List.range values.length)).zip
      (List.insertionSort (· ≤ ·) values))

/-! ## N-dimensional arrays and `weighted_quantile` (claim C8) -/

/-- Dense N-D arrays of rationals: `Tensor 0 = ℚ`,
`Tensor (r+1) = List (Tensor r)` (nested lists, row-major). -/
def Tensor : ℕ → Type
  | 0 => ℚ
  | r + 1 => List (Tensor r)

/-- Placeholder element (never read on rectangular in-range data). -/
def tdefault : (r : ℕ) → Tensor r
  | 0 => (0 : ℚ)
  | r + 1 => ([] : List (Tensor r))

/-- The identity cast from a list of rank-`r` arrays to a rank-`r+1`
array (the two types are definitionally equal; the cast gives rewriting a
stable head symbol). -/
def ofList {r : ℕ} (tl : List (Tensor r)) : Tensor (r + 1) := tl

def tensorDecEq : (r : ℕ) → DecidableEq (Tensor r)
  | 0 => (inferInstance : DecidableEq ℚ)
  | r + 1 => @List.hasDecEq _ (tensorDecEq r)

instance (r : ℕ) : DecidableEq (Tensor r) := tensorDecEq r

/-- Entry of an N-D array at a full multi-index (None when out of range or
when the index length does not match the rank). -/
def getEntry : (r : ℕ) → Tensor r → List ℕ → Option ℚ
  | 0, x, [] => some x
  | 0, _, _ :: _ => none
  | _ + 1, _, [] => none
  | r + 1, t, i :: ix =>
      let tl : List (Tensor r) := t
      match tl[i]? with
      | none => none
      | some u => getEntry r u ix

/-- Shape of an N-D array, read along the leading elements (agrees with
the numpy shape on rectangular arrays). -/
def tshape : (r : ℕ) → Tensor r → List ℕ
  | 0, _ => []
  | r + 1, t =>
      let tl : List (Tensor r) := t
      match tl with
      | [] => 0 :: List.replicate r 0
      | u :: rest => (rest.length + 1) :: tshape r u

/-- Rectangularity: every sibling subarray has the shape of the first. -/
def isRect : (r : ℕ) → Tensor r → Bool
  | 0, _ => true
  | r + 1, t =>
      let tl : List (Tensor r) := t
      match tl with
      | [] => true
      | u :: rest =>
          (u :: rest).all (fun v => isRect r v && decide (tshape r v = tshape r u))

/-- Transpose of the two leading axes of a list-of-rows, reading `L`
columns (`d` pads ragged rows; never read on rectangular data). -/
def transposeT {α : Type} (L : ℕ) (m : List (List α)) (d : α) : List (List α) :=
  List.map (fun i => m.map (fun row => row.getD i d)) (List.range L)

/-- Length of the first row of a list-of-rows (`numpy` reads the new axis
length off the first slice). -/
def headLen {α : Type} (tl : List (List α)) : ℕ :=
  match tl with
  | [] => 0
  | row :: _ => row.length

/-- Map non-`ok` outcomes across payload types (used only on errors). -/
def resErrCast {α β : Type} : Res α → Res β
  | .ok _ => .unmodelled
  | .assertError => .assertError
  | .indexError => .indexError
  | .valueError => .valueError
  | .keyError => .keyError
  | .nonFinite => .nonFinite
  | .unmodelled => .unmodelled

/-- Collect a list of outcomes, propagating the first error in order —
the iteration order of `np.apply_along_axis` (C order). -/
def seqRes {α : Type} : List (Res α) → Res (List α)
  | [] => .ok []
  | .ok a :: rs =>
      match seqRes rs with
      | .ok as => .ok (a :: as)
      | e => resErrCast e
  | e :: _ => resErrCast e

/-- `np.apply_along_axis(f, axis, t)`: apply the 1-D function `f` to every
1-D slice of `t` along `axis`, rebuilding the array around the outputs.
For axis 0 on rank ≥ 2 this transposes the two leading axes, recurses at
axis 0 on each column, and transposes back (the output axis length is read
off the first result, as numpy does).  Paths with `axis ≥ rank` (numpy
`AxisError`) are not modelled; no claim exercises them. -/
def axisApplyE (f : List ℚ → Res (List ℚ)) : (r : ℕ) → ℕ → Tensor r → Res (Tensor r)
  | 1, 0, t => f t
  | r + 2, 0, t =>
      let tl : List (List (Tensor r)) := t
      match seqRes ((transposeT (headLen tl) tl (tdefault r)).map
          (fun col => axisApplyE f (r + 1) 0 col)) with
      | .ok mapped =>
          .ok (transposeT (@headLen (Tensor r) mapped) mapped (tdefault r))
      | e => resErrCast e
  | r + 1, a + 1, t =>
      let tl : List (Tensor r) := t
      match seqRes (tl.map (fun u => axisApplyE f r a u)) with
      | .ok ts => .ok (ofList ts)
      | e => resErrCast e
  | 0, _, _ => .unmodelled

/-- Shallow embedding of `weighted_quantile` (lines 73–139): with an array
of rank > 1 and a given axis it delegates to `np.apply_along_axis` with
`weighted_quantile_1d`; otherwise it calls `weighted_quantile_1d` on the
input directly (faithful for rank-1 input; the rank-0 input and the
rank>1-without-axis path, which feeds an N-D array into the 1-D routine,
are not modelled — no claim exercises them). -/
def weighted_quantile :
    (r : ℕ) → Tensor r → List ℚ → Option (List ℚ) → Bool → Bool → Option ℕ →
      Res (Tensor r)
  | r + 2, values, quantiles, sample_weight, vs, os, some axis =>
      axisApplyE (fun line => weighted_quantile_1d line quantiles sample_weight vs os)
        (r + 2) axis values
  | _ + 2, _, _, _, _, _, none => .unmodelled
  | 1, values, quantiles, sample_weight, vs, os, _ =>
      weighted_quantile_1d values quantiles sample_weight vs os
  | 0, _, _, _, _, _, _ => .unmodelled

/-- All multi-indexes of a given shape, in C (row-major) order. -/
def idxProd : List ℕ → List (List ℕ)
  | [] => [[]]
  | n :: ns => (List.range n).flatMap (fun i => (idxProd ns).map (fun ix => i :: ix))

/-- The 1-D slice of `t` along `axis` selected by the orthogonal
multi-index `ox`: entry `k` of the slice is the entry of `t` at `ox` with
`k` inserted at position `axis`. -/
def lineAt (r : ℕ) (t : Tensor r) (axis len : ℕ) (ox : List ℕ) : List ℚ :=
  List.map (fun k => (getEntry r t (ox.insertIdx axis k)).getD 0) (List.range len)

/-! ## Correctness of the axis-wise apply against per-slice evaluation -/

def asList {r : ℕ} (t : Tensor (r + 1)) : List (Tensor r) := t

/-! ## C9: label lookup in the labeled-array wrapper -/

/-- Per-dimension coordinate values of a labeled array: either string
labels (`data.coords[dim]` along an original dimension) or the rational
quantile values attached to the new `quantile` dimension. -/
inductive CoordVals where
  | labels (ls : List String)
  | quants (qs : List ℚ)
deriving DecidableEq

/-- A labeled N-D array (`xarray.DataArray`): named dimensions, an
association list of per-dimension coordinates, and the raw values. -/
structure XArray (r : ℕ) where
  dims : List String
  coords : List (String × CoordVals)
  values : Tensor r

/-- `sample_weight.loc[labels].values` for a pandas Series given as an
association list: with any requested label missing from the index the
lookup raises `KeyError` (no zero-weight default, no skipping); otherwise
it returns the weights in label order. -/
def seriesLoc (s : List (String × ℚ)) (labels : List String) : Res (List ℚ) :=
  if labels.all (fun l => (s.lookup l).isSome) then
    .ok (labels.map (fun l => (s.lookup l).getD 0))
  else .keyError

/-- Shallow embedding of `weighted_quantile_xr` (lines 7–70): find the
axis of `dim`, build the output dims/coords (the coords dict comprehension
reads `data.coords[coord]` for every kept dimension, a `KeyError` when a
dimension has no coordinate entry), look the weights up by the labels
along `dim` (line 64, evaluated before the estimator call), then delegate
to `weighted_quantile` with the positional defaults (`old_style=False`).
An unknown `dim` and a `dim` without string labels are not exercised by
any claim and stay unmodelled. -/
def weighted_quantile_xr (r : ℕ) (data : XArray r) (quantiles : List ℚ)
    (sample_weight : List (String × ℚ)) (dim : String) (values_sorted : Bool) :
    Res (XArray r) :=
  match data.dims.indexOf? dim with
  | none => .unmodelled
  | some axis =>
      let dims' := data.dims.take axis ++ "quantile" :: data.dims.drop (axis + 1)
      if (data.dims.filter (fun c => decide (c ∈ dims'))).all
          (fun c => (data.coords.lookup c).isSome) then
        let coords' := (data.dims.filter (fun c => decide (c ∈ dims'))).filterMap
            (fun c => (data.coords.lookup c).map (fun v => (c, v)))
          ++ [("quantile", CoordVals.quants quantiles)]
        match data.coords.lookup dim with
        | some (CoordVals.labels ls) =>
            match seriesLoc sample_weight ls with
            | .ok w =>
                match weighted_quantile r data.values quantiles (some w)
                    values_sorted false (some axis) with
                | .ok out => .ok ⟨dims', coords', out⟩
                | e => resErrCast e
            | e => resErrCast e
        | _ => .unmodelled
      else .keyError

/-! ## Basic facts about the embedded pipeline -/

theorem cumsum_length (l : List ℚ) : (cumsum l).length = l.length := by
  induction l with
  | nil => rfl
  | cons a t ih => simp [cumsum, ih]

theorem wqPositions_length (w : List ℚ) : (wqPositions w).length = w.length := by
  simp [wqPositions, List.length_zipWith, cumsum_length]

theorem wqPositions_cons (a : ℚ) (l : List ℚ) :
    wqPositions (a :: l) = a / 2 :: (wqPositions l).map (a + ·) := by
  simp only [wqPositions, cumsum, List.zipWith_cons_cons, List.zipWith_map_left,
    List.map_zipWith]
  congr 1
  · ring
  · congr 1
    funext c x
    ring

theorem wqPositions_append (l₁ l₂ : List ℚ) :
    wqPositions (l₁ ++ l₂) = wqPositions l₁ ++ (wqPositions l₂).map (l₁.sum + ·) := by
  induction l₁ with
  | nil =>
      simp [wqPositions, cumsum]
  | cons a t ih =>
      simp only [List.cons_append, wqPositions_cons, ih, List.map_append, List.map_map,
        List.sum_cons]
      have hcomp : ((fun x => a + x) ∘ fun x => t.sum + x) = (fun x : ℚ => a + t.sum + x) := by
        funext x
        simp only [Function.comp]
        ring
      rw [hcomp]

theorem wqPositions_getLast? (w : List ℚ) :
    (wqPositions w).getLast? = w.getLast?.map (fun x => w.sum - x / 2) := by
  induction w with
  | nil => rfl
  | cons a t ih =>
      cases t with
      | nil =>
          have h2 : a - a / 2 = a / 2 := by ring
          simp [wqPositions_cons, wqPositions, cumsum, h2]
      | cons b s =>
          have hne : wqPositions (b :: s) ≠ [] := by
            intro h
            have h2 := wqPositions_length (b :: s)
            rw [h] at h2
            simp at h2
          obtain ⟨p, t', hpt⟩ := List.exists_cons_of_ne_nil hne
          rw [wqPositions_cons, hpt, List.map_cons, List.getLast?_cons_cons, ← List.map_cons,
            ← hpt, List.getLast?_map, ih, List.getLast?_cons_cons]
          cases hlast : (b :: s).getLast? with
          | none => simp at hlast
          | some x =>
              simp
              ring

theorem wqPositions_nonneg (w : List ℚ) (hw : ∀ x ∈ w, 0 ≤ x) :
    ∀ p ∈ wqPositions w, 0 ≤ p := by
  induction w with
  | nil => simp [wqPositions]
  | cons a t ih =>
      rw [wqPositions_cons]
      intro p hp
      rcases List.mem_cons.1 hp with h | h
      · have ha : 0 ≤ a := hw a (by simp)
        rw [h]; positivity
      · obtain ⟨q, hq, rfl⟩ := List.mem_map.1 h
        have ha : 0 ≤ a := hw a (by simp)
        have hq0 : 0 ≤ q := ih (fun x hx => hw x (by simp [hx])) q hq
        positivity

theorem wqPositions_sorted (w : List ℚ) (hw : ∀ x ∈ w, 0 ≤ x) :
    List.Sorted (· ≤ ·) (wqPositions w) := by
  induction w with
  | nil => simp [wqPositions]
  | cons a t ih =>
      rw [wqPositions_cons]
      have ha : 0 ≤ a := hw a (by simp)
      have hts : List.Sorted (· ≤ ·) (wqPositions t) :=
        ih (fun x hx => hw x (by simp [hx]))
      refine List.sorted_cons.2 ⟨?_, ?_⟩
      · intro b hb
        obtain ⟨q, hq, rfl⟩ := List.mem_map.1 hb
        have hq0 : 0 ≤ q := wqPositions_nonneg t (fun x hx => hw x (by simp [hx])) q hq
        nlinarith
      · rw [List.Sorted]
        rw [List.pairwise_map]
        exact hts.imp (fun h => by linarith)

theorem map_add_add (a b : ℚ) (l : List ℚ) :
    (l.map (b + ·)).map (a + ·) = l.map ((a + b) + ·) := by
  rw [List.map_map]
  congr 1
  funext x
  simp only [Function.comp]
  ring

theorem sortPairs_perm (values w : List ℚ) : (sortPairs values w).Perm (values.zip w) :=
  List.perm_insertionSort pairLE (values.zip w)

theorem sortPairs_sorted (values w : List ℚ) : List.Sorted pairLE (sortPairs values w) :=
  List.sorted_insertionSort pairLE (values.zip w)

theorem sortPairs_length (values w : List ℚ) (h : values.length ≤ w.length) :
    (sortPairs values w).length = values.length := by
  rw [(sortPairs_perm values w).length_eq, List.length_zip]
  exact Nat.min_eq_left h

theorem map_fst_sortPairs_perm (values w : List ℚ) (h : values.length ≤ w.length) :
    ((sortPairs values w).map Prod.fst).Perm values := by
  have hp := (sortPairs_perm values w).map Prod.fst
  rwa [List.map_fst_zip values w h] at hp

theorem map_snd_sortPairs_perm (values w : List ℚ) (h : w.length ≤ values.length) :
    ((sortPairs values w).map Prod.snd).Perm w := by
  have hp := (sortPairs_perm values w).map Prod.snd
  rwa [List.map_snd_zip values w h] at hp

theorem sum_map_snd_sortPairs (values w : List ℚ) (h : w.length = values.length) :
    ((sortPairs values w).map Prod.snd).sum = w.sum :=
  (map_snd_sortPairs_perm values w h.le).sum_eq

/-- Reduction of the unsorted path: with in-range quantiles and a weight
vector at least as long as the values, `weighted_quantile_1d` is the
finishing pipeline applied to the sorted pairs. -/
theorem weighted_quantile_1d_unsorted (values w quantiles : List ℚ) (os : Bool)
    (hq : ∀ q ∈ quantiles, 0 ≤ q ∧ q ≤ 1) (hlen : values.length ≤ w.length) :
    weighted_quantile_1d values quantiles (some w) false os
      = finishQuantile ((sortPairs values w).map Prod.fst)
          ((sortPairs values w).map Prod.snd) quantiles os := by
  simp only [weighted_quantile_1d, Option.getD_some]
  rw [if_pos hq]
  simp only [Bool.false_eq_true, if_false]
  rw [if_neg (Nat.not_lt.2 hlen)]

/-- With an empty quantile vector and a nonempty weight vector of the same
length as the values, the finishing pipeline returns the empty array. -/
theorem finishQuantile_nil (v w : List ℚ) (os : Bool) (hne : w ≠ [])
    (hlen : w.length = v.length) : finishQuantile v w [] os = .ok [] := by
  have hlen' := wqPositions_length w
  have hwq : wqPositions w ≠ [] := by
    intro h
    rw [h] at hlen'
    exact hne (List.length_eq_zero.1 hlen'.symm)
  obtain ⟨p, t, hpt⟩ := List.exists_cons_of_ne_nil hwq
  have hL : (p :: t).length = v.length := by
    rw [← hpt, hlen']
    exact hlen
  have hL' : t.length + 1 = v.length := by simpa using hL
  cases os with
  | true =>
      cases hl : (p :: t).getLast? with
      | none => simp at hl
      | some pl =>
          simp [finishQuantile, hpt, hl, interpCall, hL']
  | false =>
      simp [finishQuantile, hpt, interpCall, hL']

theorem zip_take_self {α β : Type} (a : List α) (b : List β) :
    a.zip b = a.zip (b.take a.length) := by
  induction a generalizing b with
  | nil => simp
  | cons x t ih =>
      cases b with
      | nil => simp
      | cons y s => simp [ih s]

/-! ## Claim C1 -/

/-- C1, counterexample.  The claim says that with a weight vector summing
to 0 the 1-D estimator raises a DegenerateWeights error and never lets the
zero division propagate.  On `values = [1,2]`, `weights = [0,0]`,
`quantiles = [1/2]` the source raises nothing: the only raise sites are
the quantile assert, fancy indexing and `np.interp`'s checks, none of
which fire; the division of the positions by the zero total is performed
(numpy emits a `RuntimeWarning`) and the call returns a result computed
from the resulting non-finite (NaN) positions — `Res.nonFinite`, which is
a normal return, not an exception. -/
theorem C1_counterexample :
    weighted_quantile_1d [1, 2] [1/2] (some [0, 0]) false false = .nonFinite := by
  norm_num [weighted_quantile_1d, sortPairs, finishQuantile, interpCall, wqPositions, cumsum,
    npInterpOne, npInterpGo, pairLE, List.insertionSort, List.orderedInsert]
  intro h
  exact absurd h (List.cons_ne_nil _ _)

/-- C1, amended.  For every non-empty value sequence, weight vector of
matching length summing to 0, and non-empty quantile sequence within
[0, 1], the 1-D estimator raises no error at all: the division of the
positions by the zero total weight is performed and the call returns a
result computed from the resulting non-finite positions (`Res.nonFinite`).
No DegenerateWeights error exists anywhere in the code. -/
theorem C1_amended_thm (values w quantiles : List ℚ) (hne : values ≠ [])
    (hlen : w.length = values.length) (hsum : w.sum = 0) (hqne : quantiles ≠ [])
    (hq : ∀ q ∈ quantiles, 0 ≤ q ∧ q ≤ 1) :
    weighted_quantile_1d values quantiles (some w) false false = .nonFinite := by
  rw [weighted_quantile_1d_unsorted values w quantiles false hq hlen.ge]
  have hsum' : ((sortPairs values w).map Prod.snd).sum = 0 := by
    rw [sum_map_snd_sortPairs values w hlen]
    exact hsum
  have hslen : (sortPairs values w).length = values.length :=
    sortPairs_length values w hlen.ge
  have hvne : values.length ≠ 0 := fun h => hne (List.length_eq_zero.1 h)
  have hwlen : ((sortPairs values w).map Prod.snd).length = values.length := by
    simp [hslen]
  have hvlen : ((sortPairs values w).map Prod.fst).length = values.length := by
    simp [hslen]
  have hposlen :
      (wqPositions ((sortPairs values w).map Prod.snd)).length = values.length := by
    rw [wqPositions_length, hwlen]
  rw [finishQuantile]
  simp only [Bool.false_eq_true, if_false]
  rw [interpCall, hsum']
  have hxplen :
      ((wqPositions ((sortPairs values w).map Prod.snd)).map (· / (0:ℚ))).length
        = values.length := by
    simp [hposlen]
  have hxpne :
      ((wqPositions ((sortPairs values w).map Prod.snd)).map (· / (0:ℚ))) ≠ [] := by
    apply List.length_pos.1
    rw [hxplen]
    exact Nat.pos_of_ne_zero hvne
  rw [if_neg hxpne, if_neg (by rw [hxplen, hvlen]; exact fun h => h rfl),
    if_pos ⟨by simp, hqne⟩]

/-- C1, witness for the amended theorem at a concrete input. -/
theorem C1_witness : weighted_quantile_1d [5] [1/2] (some [0]) false false = .nonFinite :=
  C1_amended_thm [5] [0] [1/2] (by simp) (by simp) (by simp) (by simp)
    (by norm_num)

/-! ## Claim C2 -/

/-- C2, counterexample.  The claim says that any length mismatch between
values and weights fails with a LengthMismatch error before sorting.  With
`values = [1,2]`, `weights = [1,1,5]` (lengths 2 ≠ 3) the call does not
fail at all: the sorter's fancy indexing silently restricts the weights to
the first two entries and the call returns `[3/2]`. -/
theorem C2_counterexample :
    weighted_quantile_1d [1, 2] [1/2] (some [1, 1, 5]) false false = .ok [3/2] := by
  norm_num [weighted_quantile_1d, sortPairs, finishQuantile, interpCall, wqPositions, cumsum,
    npInterpOne, npInterpGo, pairLE, List.insertionSort, List.orderedInsert]
  intro h
  exact absurd h (List.cons_ne_nil _ _)

/-- C2, amended.  The source performs no length check.  In the unsorted
path: when the weight vector is at least as long as the value vector, the
call silently behaves exactly as if the weights had been truncated to
`len(values)` entries (the sorter's index set is `0..len(values)-1`), and
when the weight vector is strictly shorter, the post-sort fancy indexing
`sample_weight[sorter]` raises `IndexError` — i.e. after the values have
been sorted, and only when the quantile assert passed first. -/
theorem C2_amended_thm (values w quantiles : List ℚ) (os : Bool) :
    (values.length ≤ w.length →
      weighted_quantile_1d values quantiles (some w) false os
        = weighted_quantile_1d values quantiles (some (w.take values.length)) false os)
    ∧ (w.length < values.length → (∀ q ∈ quantiles, 0 ≤ q ∧ q ≤ 1) →
      weighted_quantile_1d values quantiles (some w) false os = .indexError) := by
  constructor
  · intro hlen
    have htl : (w.take values.length).length = values.length := by
      simp [List.length_take, Nat.min_eq_left hlen]
    by_cases hq : ∀ q ∈ quantiles, 0 ≤ q ∧ q ≤ 1
    · rw [weighted_quantile_1d_unsorted values w quantiles os hq hlen,
        weighted_quantile_1d_unsorted values (w.take values.length) quantiles os hq htl.ge]
      rw [sortPairs, sortPairs, ← zip_take_self]
    · simp only [weighted_quantile_1d, Option.getD_some]
      rw [if_neg hq, if_neg hq]
  · intro hlt hq
    simp only [weighted_quantile_1d, Option.getD_some]
    rw [if_pos hq]
    simp only [Bool.false_eq_true, if_false]
    rw [if_pos hlt]

/-- C2, witness: at `values = [1,2]`, `weights = [1,1,5]` the call equals
the call on the truncated weights `[1,1]`. -/
theorem C2_witness :
    weighted_quantile_1d [1, 2] [1/2] (some [1, 1, 5]) false false
      = weighted_quantile_1d [1, 2] [1/2] (some [1, 1]) false false := by
  have h := (C2_amended_thm [1, 2] [1, 1, 5] [1/2] false).1 (by simp)
  simpa using h

/-! ## Claim C3 -/

/-- C3, counterexample.  The claim says replacing one observation of
weight `w` by two observations of weight `w/2` at the same value leaves
every estimate unchanged.  Splitting the weight-1 observation at value 2
of `values = [1,2]`, `weights = [1,1]` yields `5/3 ≠ 3/2` at `q = 1/2`. -/
theorem C3_counterexample :
    weighted_quantile_1d [1, 2] [1/2] (some [1, 1]) false false = .ok [3/2] ∧
    weighted_quantile_1d [1, 2, 2] [1/2] (some [1, 1/2, 1/2]) false false = .ok [5/3] := by
  constructor <;>
    (norm_num [weighted_quantile_1d, sortPairs, finishQuantile, interpCall, wqPositions, cumsum,
      npInterpOne, npInterpGo, pairLE, List.insertionSort, List.orderedInsert]
     intro h
     exact absurd h (List.cons_ne_nil _ _))

/-- C3, amended.  Splitting one observation of weight `w` into two
half-weight observations at the same value preserves the total weight and
every other observation's adjusted position, but replaces the single
position knot `c + w/2` (with `c` the weight mass before the observation)
by the two knots `c + w/4` and `c + 3w/4`; the interpolation curve
therefore changes and the estimates are not left unchanged in general
(see the counterexample). -/
theorem C3_amended_thm (pre suf : List ℚ) (w : ℚ) :
    (pre ++ w / 2 :: w / 2 :: suf).sum = (pre ++ w :: suf).sum ∧
    wqPositions (pre ++ w :: suf)
      = wqPositions pre ++ (pre.sum + w / 2) :: (wqPositions suf).map ((pre.sum + w) + ·) ∧
    wqPositions (pre ++ w / 2 :: w / 2 :: suf)
      = wqPositions pre ++ (pre.sum + w / 4) :: (pre.sum + 3 * w / 4)
          :: (wqPositions suf).map ((pre.sum + w) + ·) := by
  refine ⟨?_, ?_, ?_⟩
  · simp only [List.sum_append, List.sum_cons]
    ring
  · rw [wqPositions_append, wqPositions_cons, List.map_cons, map_add_add]
  · rw [wqPositions_append, wqPositions_cons, wqPositions_cons, List.map_cons, map_add_add,
      List.map_cons, map_add_add]
    have h1 : pre.sum + w / 2 / 2 = pre.sum + w / 4 := by ring
    have h2 : pre.sum + w / 2 + w / 2 / 2 = pre.sum + 3 * w / 4 := by ring
    have h3 : pre.sum + w / 2 + w / 2 = pre.sum + w := by ring
    simp only [h1, h2, h3]

/-! ## Claim C5 -/

/-- C5: on `values = [1,2,3]`, `weights = [1,1,2]`, `quantiles = [0.5]`,
default normalization, the estimator returns exactly `7/3`, interpolating
`q = 0.5` between the normalized positions `3/8` (value 2) and `3/4`
(value 3). -/
theorem C5_thm :
    weighted_quantile_1d [1, 2, 3] [1/2] (some [1, 1, 2]) false false = .ok [7/3] := by
  norm_num [weighted_quantile_1d, sortPairs, finishQuantile, interpCall, wqPositions, cumsum,
    npInterpOne, npInterpGo, pairLE, List.insertionSort, List.orderedInsert]
  intro h
  exact absurd h (List.cons_ne_nil _ _)

/-! ## Claim C10 -/

/-- C10: with a non-empty value sequence and a valid weight configuration
(default weights, or an explicit weight vector of matching length), an
empty quantile sequence makes the 1-D estimator succeed with the empty
result, for every combination of the two flags. -/
theorem C10_thm (values : List ℚ) (sample_weight : Option (List ℚ))
    (values_sorted old_style : Bool) (hne : values ≠ [])
    (hw : sample_weight = none
      ∨ ∃ w, sample_weight = some w ∧ w.length = values.length) :
    weighted_quantile_1d values [] sample_weight values_sorted old_style = .ok [] := by
  have hvpos : 0 < values.length := List.length_pos.2 hne
  have htriv : ∀ q ∈ ([] : List ℚ), 0 ≤ q ∧ q ≤ 1 := by simp
  have main : ∀ w0 : List ℚ, w0.length = values.length →
      (if values_sorted then finishQuantile values w0 [] old_style
       else if w0.length < values.length then Res.indexError
       else finishQuantile ((sortPairs values w0).map Prod.fst)
         ((sortPairs values w0).map Prod.snd) [] old_style) = .ok [] := by
    intro w0 hlen
    have hw0ne : w0 ≠ [] := by
      intro h
      rw [h] at hlen
      exact hne (List.length_eq_zero.1 hlen.symm)
    cases values_sorted with
    | true =>
        simp only [if_true]
        exact finishQuantile_nil values w0 old_style hw0ne hlen
    | false =>
        simp only [Bool.false_eq_true, if_false]
        rw [if_neg (Nat.not_lt.2 hlen.ge)]
        have hslen : (sortPairs values w0).length = values.length :=
          sortPairs_length values w0 hlen.ge
        refine finishQuantile_nil _ _ _ ?_ (by simp [hslen])
        intro h
        have hlen2 : ((sortPairs values w0).map Prod.snd).length = 0 := by
          rw [h]
          rfl
        rw [List.length_map, hslen] at hlen2
        exact absurd hlen2 hvpos.ne'
  obtain rfl | ⟨w, rfl, hlen⟩ := hw
  · simp only [weighted_quantile_1d, Option.getD_none]
    rw [if_pos htriv]
    exact main (List.replicate values.length 1) (by simp)
  · simp only [weighted_quantile_1d, Option.getD_some]
    rw [if_pos htriv]
    exact main w hlen

/-- C10, witness: a concrete instance for each flag combination. -/
theorem C10_witness :
    weighted_quantile_1d [1, 2] [] (some [0, 0]) false false = .ok [] ∧
    weighted_quantile_1d [1, 2] [] none true true = .ok [] :=
  ⟨C10_thm [1, 2] (some [0, 0]) false false (by simp) (Or.inr ⟨[0, 0], rfl, by simp⟩),
   C10_thm [1, 2] none true true (by simp) (Or.inl rfl)⟩

/-! ## Claim C4 -/

/-- C4, counterexample.  The claim asserts permutation invariance for
every joint permutation of (values, weights).  With tied values carrying
unequal weights the sort's tie order matters: swapping the two pairs at
value 2 changes the answer at `q = 0.3` from `3/2` to `2`. -/
theorem C4_counterexample :
    ((([1, 2, 2] : List ℚ).zip ([1, 3, 1] : List ℚ)).Perm
        (([1, 2, 2] : List ℚ).zip ([1, 1, 3] : List ℚ))) ∧
    weighted_quantile_1d [1, 2, 2] [3/10] (some [1, 3, 1]) false false
      ≠ weighted_quantile_1d [1, 2, 2] [3/10] (some [1, 1, 3]) false false := by
  constructor
  · have h : ([(1, 1), (2, 3), (2, 1)] : List (ℚ × ℚ)).Perm [(1, 1), (2, 1), (2, 3)] :=
      List.Perm.cons _ (List.Perm.swap _ _ _)
    simpa using h
  · norm_num [weighted_quantile_1d, sortPairs, finishQuantile, interpCall, wqPositions, cumsum,
      npInterpOne, npInterpGo, pairLE, List.insertionSort, List.orderedInsert]
    rw [if_neg (List.cons_ne_nil _ _), if_neg (List.cons_ne_nil _ _)]
    norm_num

/-- A sorted pair list with pairwise-distinct keys is strictly sorted in
its keys. -/
theorem pairwise_lt_of_sorted_nodup (s : List (ℚ × ℚ)) (hs : List.Sorted pairLE s)
    (hk : (s.map Prod.fst).Nodup) :
    List.Pairwise (fun a b : ℚ × ℚ => a.1 < b.1) s := by
  have hne : List.Pairwise (fun a b : ℚ × ℚ => a.1 ≠ b.1) s := List.pairwise_map.1 hk
  exact (hs.and hne).imp (fun h => lt_of_le_of_ne h.1 h.2)

/-- C4, amended.  Permutation invariance does hold whenever the values are
pairwise distinct: any joint permutation of the (value, weight) pairs
leaves the result of the unsorted-path estimator unchanged, because the
sort then has a unique sorted arrangement.  (With ties it can fail — see
the counterexample.) -/
theorem C4_amended_thm (values w values' w' quantiles : List ℚ) (os : Bool)
    (hlen : values.length = w.length) (hlen' : values'.length = w'.length)
    (hperm : (values.zip w).Perm (values'.zip w'))
    (hnodup : values.Nodup) :
    weighted_quantile_1d values quantiles (some w) false os
      = weighted_quantile_1d values' quantiles (some w') false os := by
  by_cases hq : ∀ q ∈ quantiles, 0 ≤ q ∧ q ≤ 1
  · rw [weighted_quantile_1d_unsorted values w quantiles os hq hlen.le,
      weighted_quantile_1d_unsorted values' w' quantiles os hq hlen'.le]
    suffices h : sortPairs values w = sortPairs values' w' by rw [h]
    have hperm2 : (sortPairs values w).Perm (sortPairs values' w') :=
      ((sortPairs_perm values w).trans hperm).trans (sortPairs_perm values' w').symm
    have hkeys1 : ((sortPairs values w).map Prod.fst).Nodup := by
      have hp := map_fst_sortPairs_perm values w hlen.le
      exact hp.nodup_iff.2 hnodup
    have hkeys2 : ((sortPairs values' w').map Prod.fst).Nodup :=
      (hperm2.map Prod.fst).nodup_iff.1 hkeys1
    have hstrict1 := pairwise_lt_of_sorted_nodup _ (sortPairs_sorted values w) hkeys1
    have hstrict2 := pairwise_lt_of_sorted_nodup _ (sortPairs_sorted values' w') hkeys2
    haveI : IsAntisymm (ℚ × ℚ) (fun a b => a.1 < b.1) :=
      ⟨fun _ _ h1 h2 => absurd h2 (lt_asymm h1)⟩
    exact List.eq_of_perm_of_sorted hperm2 hstrict1 hstrict2
  · simp only [weighted_quantile_1d, Option.getD_some]
    rw [if_neg hq, if_neg hq]

/-- C4, witness: the amended theorem applied to a concrete joint
permutation of distinct-valued pairs. -/
theorem C4_witness :
    weighted_quantile_1d [2, 1] [1/2] (some [5, 7]) false false
      = weighted_quantile_1d [1, 2] [1/2] (some [7, 5]) false false :=
  C4_amended_thm [2, 1] [5, 7] [1, 2] [7, 5] [1/2] false (by simp) (by simp)
    (by simpa using List.Perm.swap ((1 : ℚ), (7 : ℚ)) ((2 : ℚ), (5 : ℚ)) [])
    (by norm_num)

/-! ## Claim C6 -/

theorem pairLE_refl (p : ℚ × ℚ) : pairLE p p := le_refl p.1

theorem mem_of_getLast?_eq {α : Type} (l : List α) (a : α) (h : l.getLast? = some a) :
    a ∈ l := by
  cases l with
  | nil => simp at h
  | cons x t =>
      have hne : x :: t ≠ [] := List.cons_ne_nil x t
      rw [List.getLast?_eq_getLast _ hne] at h
      exact Option.some_inj.1 h ▸ List.getLast_mem hne

theorem sorted_pairLE_getLast? :
    ∀ (s : List (ℚ × ℚ)), List.Sorted pairLE s → ∀ kl, s.getLast? = some kl →
      ∀ p ∈ s, pairLE p kl := by
  intro s
  induction s with
  | nil =>
      intro _ kl hkl
      simp at hkl
  | cons a t ih =>
      intro hs kl hkl p hp
      cases t with
      | nil =>
          simp at hkl hp
          rw [hp, ← hkl]
          exact pairLE_refl a
      | cons b u =>
          rw [List.getLast?_cons_cons] at hkl
          rcases List.mem_cons.1 hp with rfl | hp'
          · exact (List.sorted_cons.1 hs).1 kl (mem_of_getLast?_eq _ _ hkl)
          · exact ih (List.sorted_cons.1 hs).2 kl hkl p hp'

theorem min?_eq_some_of (l : List ℚ) (a : ℚ) (h : a ∈ l) (hall : ∀ b ∈ l, a ≤ b) :
    l.min? = some a := by
  haveI : Std.Antisymm (fun (a b : ℚ) => a ≤ b) := ⟨fun h1 h2 => le_antisymm h1 h2⟩
  rw [List.min?_eq_some_iff (fun a => le_refl a) (fun a b => min_choice a b)
    (fun a b c => le_min_iff)]
  exact ⟨h, hall⟩

theorem max?_eq_some_of (l : List ℚ) (a : ℚ) (h : a ∈ l) (hall : ∀ b ∈ l, b ≤ a) :
    l.max? = some a := by
  haveI : Std.Antisymm (fun (a b : ℚ) => a ≤ b) := ⟨fun h1 h2 => le_antisymm h1 h2⟩
  rw [List.max?_eq_some_iff (fun a => le_refl a) (fun a b => max_choice a b)
    (fun a b c => max_le_iff)]
  exact ⟨h, hall⟩

theorem zip_getLast?_eq {α β : Type} :
    ∀ (a : List α) (b : List β), a.length = b.length →
      (a.zip b).getLast? = a.getLast?.bind (fun x => b.getLast?.map (fun y => (x, y))) := by
  intro a
  induction a with
  | nil =>
      intro b h
      simp
  | cons p a' ih =>
      intro b h
      cases b with
      | nil => simp at h
      | cons q b' =>
          cases a' with
          | nil =>
              cases b' with
              | nil => simp
              | cons q2 b'' => simp at h
          | cons p2 a'' =>
              cases b' with
              | nil => simp at h
              | cons q2 b'' =>
                  have h' : (p2 :: a'').length = (q2 :: b'').length := by simpa using h
                  simp only [List.zip_cons_cons, List.getLast?_cons_cons]
                  rw [← List.zip_cons_cons]
                  exact ih (q2 :: b'') h'

/-- `np.interp` clamps a query on or below the first knot position to the
first knot value. -/
theorem npInterpOne_left (x : ℚ) (k0 : ℚ × ℚ) (rest : List (ℚ × ℚ)) (kl : ℚ × ℚ)
    (hkl : (k0 :: rest).getLast? = some kl) (h1 : ¬ kl.1 < x) (h2 : x < k0.1) :
    npInterpOne x (k0 :: rest) = k0.2 := by
  simp only [npInterpOne, hkl, Option.getD_some]
  rw [if_neg h1, if_pos h2]

/-- `np.interp` clamps a query beyond the last knot position to the last
knot value. -/
theorem npInterpOne_right (x : ℚ) (k0 : ℚ × ℚ) (rest : List (ℚ × ℚ)) (kl : ℚ × ℚ)
    (hkl : (k0 :: rest).getLast? = some kl) (h1 : kl.1 < x) :
    npInterpOne x (k0 :: rest) = kl.2 := by
  simp only [npInterpOne, hkl, Option.getD_some]
  rw [if_pos h1]

/-- The finishing pipeline on a sorted pair list with strictly positive
weights sends the quantile pair `[0, 1]` to the first and last values. -/
theorem finishQuantile_bounds (s0 : ℚ × ℚ) (sr : List (ℚ × ℚ)) (kl : ℚ × ℚ)
    (hkl : (s0 :: sr).getLast? = some kl)
    (hpos : ∀ p ∈ s0 :: sr, 0 < p.2) :
    finishQuantile ((s0 :: sr).map Prod.fst) ((s0 :: sr).map Prod.snd) [0, 1] false
      = .ok [s0.1, kl.1] := by
  have hklmem : kl ∈ s0 :: sr := mem_of_getLast?_eq _ _ hkl
  have hwpos : ∀ x ∈ (s0 :: sr).map Prod.snd, 0 < x := by
    intro x hx
    obtain ⟨p, hp, rfl⟩ := List.mem_map.1 hx
    exact hpos p hp
  have hwne : (s0 :: sr).map Prod.snd ≠ [] := by simp
  have hT : 0 < ((s0 :: sr).map Prod.snd).sum := List.sum_pos _ hwpos hwne
  set T := ((s0 :: sr).map Prod.snd).sum with hTdef
  -- the position vector
  have hwq_cons : wqPositions ((s0 :: sr).map Prod.snd)
      = s0.2 / 2 :: (wqPositions (sr.map Prod.snd)).map (s0.2 + ·) := by
    rw [List.map_cons, wqPositions_cons]
  have hwq_last : (wqPositions ((s0 :: sr).map Prod.snd)).getLast?
      = some (T - kl.2 / 2) := by
    rw [wqPositions_getLast?, List.getLast?_map, hkl, ← hTdef]
    rfl
  -- the normalized positions
  set xp := (wqPositions ((s0 :: sr).map Prod.snd)).map (· / T) with hxpdef
  have hxp_cons : xp = (s0.2 / 2) / T
      :: ((wqPositions (sr.map Prod.snd)).map (s0.2 + ·)).map (· / T) := by
    rw [hxpdef, hwq_cons, List.map_cons]
  have hxp_last : xp.getLast? = some ((T - kl.2 / 2) / T) := by
    rw [hxpdef, List.getLast?_map, hwq_last]
    rfl
  have hxp_len : xp.length = ((s0 :: sr).map Prod.fst).length := by
    rw [hxpdef, List.length_map, wqPositions_length]
    simp
  -- the knots
  have hknots : xp.zip ((s0 :: sr).map Prod.fst)
      = ((s0.2 / 2) / T, s0.1)
        :: (((wqPositions (sr.map Prod.snd)).map (s0.2 + ·)).map (· / T)).zip
             (sr.map Prod.fst) := by
    rw [hxp_cons, List.map_cons, List.zip_cons_cons]
  have hknots_last : (xp.zip ((s0 :: sr).map Prod.fst)).getLast?
      = some ((T - kl.2 / 2) / T, kl.1) := by
    rw [zip_getLast?_eq xp ((s0 :: sr).map Prod.fst) hxp_len, hxp_last, List.getLast?_map,
      hkl]
    rfl
  -- boundary facts
  have hs02 : 0 < s0.2 := hpos s0 (by simp)
  have hkl2 : 0 < kl.2 := hpos kl hklmem
  have hkl2T : kl.2 ≤ T := by
    rw [hTdef]
    exact List.single_le_sum (fun x hx => (hwpos x hx).le) kl.2
      (List.mem_map.2 ⟨kl, hklmem, rfl⟩)
  have hlast_nonneg : ¬ ((T - kl.2 / 2) / T < 0) := by
    push_neg
    apply div_nonneg _ hT.le
    linarith
  have hlast_lt_one : (T - kl.2 / 2) / T < 1 := by
    rw [div_lt_one hT]
    linarith
  have hhead_pos : (0 : ℚ) < (s0.2 / 2) / T := by positivity
  -- evaluate interpolation at the two boundary queries
  have hq0 : npInterpOne 0 (xp.zip ((s0 :: sr).map Prod.fst)) = s0.1 := by
    rw [hknots]
    rw [hknots] at hknots_last
    exact npInterpOne_left 0 _ _ _ hknots_last hlast_nonneg hhead_pos
  have hq1 : npInterpOne 1 (xp.zip ((s0 :: sr).map Prod.fst)) = kl.1 := by
    rw [hknots]
    rw [hknots] at hknots_last
    exact npInterpOne_right 1 _ _ _ hknots_last hlast_lt_one
  -- assemble
  rw [finishQuantile]
  simp only [Bool.false_eq_true, if_false]
  rw [← hTdef, interpCall, ← hxpdef]
  rw [if_neg (by rw [hxp_cons]; exact List.cons_ne_nil _ _),
    if_neg (by rw [hxp_len]; exact fun h => h rfl),
    if_neg (by
      intro hcontra
      have := hcontra.1
      rw [decide_eq_false_iff_not] at this
      exact this hT.ne')]
  rw [show List.map (fun q => npInterpOne q (xp.zip ((s0 :: sr).map Prod.fst))) [0, 1]
      = [npInterpOne 0 (xp.zip ((s0 :: sr).map Prod.fst)),
         npInterpOne 1 (xp.zip ((s0 :: sr).map Prod.fst))] from rfl, hq0, hq1]

/-- C6, counterexample.  The claim covers all non-negative weights with
positive total.  With `values = [1,2,3]`, `weights = [0,0,1]` (total 1)
the first two normalized positions are both 0; `np.interp` resolves the
duplicate knot at the query `q = 0` to the rightmost knot with position
`≤ 0`, returning 2 instead of the minimum 1. -/
theorem C6_counterexample :
    weighted_quantile_1d [1, 2, 3] [0] (some [0, 0, 1]) false false = .ok [2] := by
  norm_num [weighted_quantile_1d, sortPairs, finishQuantile, interpCall, wqPositions, cumsum,
    npInterpOne, npInterpGo, pairLE, List.insertionSort, List.orderedInsert]
  intro h
  exact absurd h (List.cons_ne_nil _ _)

/-- C6, amended.  Under strictly positive weights (rather than merely
non-negative with positive total), quantile 0 returns the minimum of the
values and quantile 1 returns the maximum: positive weights keep the
query 0 strictly below the first knot and the query 1 strictly above the
last knot, so both clamp to the endpoint values. -/
theorem C6_amended_thm (values w : List ℚ) (hne : values ≠ [])
    (hlen : w.length = values.length) (hpos : ∀ x ∈ w, 0 < x) :
    weighted_quantile_1d values [0, 1] (some w) false false
      = .ok [(values.min?).getD 0, (values.max?).getD 0] := by
  have hq : ∀ q ∈ ([0, 1] : List ℚ), 0 ≤ q ∧ q ≤ 1 := by norm_num
  rw [weighted_quantile_1d_unsorted values w [0, 1] false hq hlen.ge]
  have hslen : (sortPairs values w).length = values.length :=
    sortPairs_length values w hlen.ge
  have hsne : sortPairs values w ≠ [] := by
    intro h
    rw [h] at hslen
    exact hne (List.length_eq_zero.1 hslen.symm)
  obtain ⟨s0, sr, hs⟩ := List.exists_cons_of_ne_nil hsne
  have hsorted := sortPairs_sorted values w
  have hfst_perm := map_fst_sortPairs_perm values w hlen.ge
  have hsnd_perm := map_snd_sortPairs_perm values w hlen.le
  rw [hs] at hsorted hfst_perm hsnd_perm
  obtain ⟨kl, hkl⟩ : ∃ kl, (s0 :: sr).getLast? = some kl :=
    ⟨(s0 :: sr).getLast (List.cons_ne_nil _ _), List.getLast?_eq_getLast _ _⟩
  have hpos' : ∀ p ∈ s0 :: sr, 0 < p.2 := by
    intro p hp
    exact hpos p.2 (hsnd_perm.mem_iff.1 (List.mem_map.2 ⟨p, hp, rfl⟩))
  rw [hs, finishQuantile_bounds s0 sr kl hkl hpos']
  have hmin : values.min? = some s0.1 := by
    apply min?_eq_some_of
    · exact hfst_perm.mem_iff.1 (List.mem_map.2 ⟨s0, by simp, rfl⟩)
    · intro b hb
      obtain ⟨p, hp, rfl⟩ := List.mem_map.1 (hfst_perm.mem_iff.2 hb)
      rcases List.mem_cons.1 hp with rfl | hp'
      · exact le_refl _
      · exact (List.sorted_cons.1 hsorted).1 p hp'
  have hmax : values.max? = some kl.1 := by
    apply max?_eq_some_of
    · exact hfst_perm.mem_iff.1 (List.mem_map.2 ⟨kl, mem_of_getLast?_eq _ _ hkl, rfl⟩)
    · intro b hb
      obtain ⟨p, hp, rfl⟩ := List.mem_map.1 (hfst_perm.mem_iff.2 hb)
      exact sorted_pairLE_getLast? _ hsorted kl hkl p hp
  rw [hmin, hmax]
  rfl

/-- C6, witness: the amended theorem at `values = [3,1,2]`,
`weights = [1,2,1]` yields `[1, 3]` for the quantile pair `[0, 1]`. -/
theorem C6_witness :
    weighted_quantile_1d [3, 1, 2] [0, 1] (some [1, 2, 1]) false false = .ok [1, 3] := by
  have h := C6_amended_thm [3, 1, 2] [1, 2, 1] (by simp) (by simp) (by norm_num)
  simpa [List.min?, List.max?] using h

/-! ## Claim C7 -/

theorem zip_replicate_const (values : List ℚ) (c : ℚ) :
    values.zip (List.replicate values.length c) = values.map (fun v => (v, c)) := by
  induction values with
  | nil => rfl
  | cons a t ih => simp [List.replicate_succ, ih]

theorem orderedInsert_map_const (a c : ℚ) (l : List ℚ) :
    List.orderedInsert pairLE (a, c) (l.map (fun v => (v, c)))
      = (List.orderedInsert (· ≤ ·) a l).map (fun v => (v, c)) := by
  induction l with
  | nil => rfl
  | cons b t ih =>
      by_cases h : a ≤ b
      · simp [List.orderedInsert, pairLE, h]
      · simp [List.orderedInsert, pairLE, h, ih]

theorem insertionSort_map_const (c : ℚ) (l : List ℚ) :
    List.insertionSort pairLE (l.map (fun v => (v, c)))
      = (List.insertionSort (· ≤ ·) l).map (fun v => (v, c)) := by
  induction l with
  | nil => rfl
  | cons a t ih => simp [List.insertionSort, ih, orderedInsert_map_const]

/-- Sorting values zipped against all-equal weights is sorting the values. -/
theorem sortPairs_const_snd (values : List ℚ) (c : ℚ) :
    sortPairs values (List.replicate values.length c)
      = (List.insertionSort (· ≤ ·) values).map (fun v => (v, c)) := by
  rw [sortPairs, zip_replicate_const, insertionSort_map_const]

theorem wqPositions_replicate_one (n : ℕ) :
    wqPositions (List.replicate n 1)
      = List.map (fun i : ℕ => (i : ℚ) + 1/2) (List.range n) := by
  induction n with
  | zero => rfl
  | succ m ih =>
      rw [List.replicate_succ, wqPositions_cons, ih, List.range_succ_eq_map]
      rw [List.map_cons, List.map_map, List.map_map]
      congr 1
      · norm_num
      · congr 1
        funext i
        simp only [Function.comp]
        push_cast
        ring

theorem range_map_getLast? (n : ℕ) (f : ℕ → ℚ) (hn : 1 ≤ n) :
    ((List.range n).map f).getLast? = some (f (n - 1)) := by
  obtain ⟨m, rfl⟩ : ∃ m, n = m + 1 := ⟨n - 1, by omega⟩
  rw [List.range_succ, List.map_append]
  simp [List.getLast?_append]

theorem npInterpGo_scale (c x : ℚ) (hc : 0 < c) :
    ∀ (k : ℚ × ℚ) (rest : List (ℚ × ℚ)),
      npInterpGo (c * x) (c * k.1, k.2) (rest.map (fun r => (c * r.1, r.2)))
        = npInterpGo x k rest := by
  intro k rest
  induction rest generalizing k with
  | nil => rfl
  | cons r2 rest' ih =>
      obtain ⟨p1, v1⟩ := k
      obtain ⟨p2, v2⟩ := r2
      simp only [List.map_cons, npInterpGo]
      by_cases h2 : x < p2
      · rw [if_pos ((mul_lt_mul_left hc).2 h2), if_pos h2]
        by_cases h1 : p1 = x
        · rw [if_pos (by rw [h1]), if_pos h1]
        · rw [if_neg (fun hcp => h1 (mul_left_cancel₀ hc.ne' hcp)), if_neg h1]
          by_cases hp : p2 = p1
          · subst hp
            simp
          · have hne : p2 - p1 ≠ 0 := sub_ne_zero.2 hp
            have h3 : c * p2 - c * p1 ≠ 0 := by
              rw [← mul_sub]
              exact mul_ne_zero hc.ne' hne
            field_simp
            ring
      · rw [if_neg (fun hcon => h2 ((mul_lt_mul_left hc).1 hcon)), if_neg h2]
        exact ih (p2, v2)

/-- Rescaling all knot positions by a positive factor and the query by the
same factor leaves `np.interp` unchanged. -/
theorem npInterpOne_scale (c x : ℚ) (hc : 0 < c) (knots : List (ℚ × ℚ)) :
    npInterpOne (c * x) (knots.map (fun r => (c * r.1, r.2))) = npInterpOne x knots := by
  cases knots with
  | nil => rfl
  | cons k0 rest =>
      obtain ⟨kl, hkl⟩ : ∃ kl, (k0 :: rest).getLast? = some kl :=
        ⟨_, List.getLast?_eq_getLast _ (List.cons_ne_nil _ _)⟩
      have hlast : ((c * k0.1, k0.2) :: rest.map (fun r => (c * r.1, r.2))).getLast?
          = some (c * kl.1, kl.2) := by
        rw [show ((c * k0.1, k0.2) :: rest.map (fun r => (c * r.1, r.2)))
            = (k0 :: rest).map (fun r => (c * r.1, r.2)) from rfl,
          List.getLast?_map, hkl]
        rfl
      simp only [List.map_cons, npInterpOne, hlast, hkl, Option.getD_some]
      by_cases h1 : kl.1 < x
      · rw [if_pos ((mul_lt_mul_left hc).2 h1), if_pos h1]
      · rw [if_neg (fun hcon => h1 ((mul_lt_mul_left hc).1 hcon)), if_neg h1]
        by_cases h2 : x < k0.1
        · rw [if_pos ((mul_lt_mul_left hc).2 h2), if_pos h2]
        · rw [if_neg (fun hcon => h2 ((mul_lt_mul_left hc).1 hcon)), if_neg h2]
          exact npInterpGo_scale c x hc k0 rest

theorem map_fun_const {α : Type} (l : List α) (c : ℚ) :
    l.map (fun _ => c) = List.replicate l.length c := by
  induction l with
  | nil => rfl
  | cons a t ih => simp [List.replicate_succ, ih]

theorem scaled_uniform_knots (c : ℚ) (hc : c ≠ 0) (n : ℕ) (sv : List ℚ) :
    (((List.map (fun i : ℕ => (i : ℚ)) (List.range n)).map (· / c)).zip sv).map
        (fun r => (c * r.1, r.2))
      = (List.map (fun i : ℕ => (i : ℚ)) (List.range n)).zip sv := by
  rw [show (fun r : ℚ × ℚ => (c * r.1, r.2)) = Prod.map (fun p : ℚ => c * p) id from rfl,
    ← List.zip_map_left, List.map_map, List.map_map]
  have hfun : (((fun p : ℚ => c * p) ∘ fun x : ℚ => x / c) ∘ fun i : ℕ => (i : ℚ))
      = (fun i : ℕ => (i : ℚ)) := by
    funext i
    simp only [Function.comp]
    field_simp
  rw [hfun]

/-- C7: with all-ones weights and legacy normalization (`old_style=True`),
the 1-D estimator returns, for every quantile sequence in [0, 1] and every
value sequence of length ≥ 2, exactly the classic unweighted
linear-interpolation percentile of the values at fractional index
`q·(n−1)` into the ascending-sorted values. -/
theorem C7_thm (values qs : List ℚ) (h2 : 2 ≤ values.length)
    (hq : ∀ q ∈ qs, 0 ≤ q ∧ q ≤ 1) :
    weighted_quantile_1d values qs (some (List.replicate values.length 1)) false true
      = .ok (qs.map (classic_percentile_spec values)) := by
  obtain ⟨m, hm⟩ : ∃ m, values.length = m + 2 := ⟨values.length - 2, by omega⟩
  have hlen : values.length ≤ (List.replicate values.length (1 : ℚ)).length := by simp
  rw [weighted_quantile_1d_unsorted values _ qs true hq hlen]
  rw [sortPairs_const_snd values 1]
  set sv := List.insertionSort (· ≤ ·) values with hsv
  have hsvlen : sv.length = values.length := (List.perm_insertionSort _ values).length_eq
  have hfst : (sv.map (fun v => (v, (1 : ℚ)))).map Prod.fst = sv := by
    rw [List.map_map, show (Prod.fst ∘ fun v : ℚ => (v, (1 : ℚ))) = id from rfl, List.map_id]
  have hsnd : (sv.map (fun v => (v, (1 : ℚ)))).map Prod.snd
      = List.replicate values.length 1 := by
    rw [List.map_map, show (Prod.snd ∘ fun v : ℚ => (v, (1 : ℚ))) = fun _ : ℚ => (1 : ℚ)
        from rfl, map_fun_const, hsvlen]
  rw [hfst, hsnd]
  simp only [finishQuantile, eq_self_iff_true, if_true]
  rw [wqPositions_replicate_one, hm]
  have hhead : (List.map (fun i : ℕ => (i : ℚ) + 1/2) (List.range (m + 2))).head?
      = some (1/2 : ℚ) := by
    rw [List.range_succ_eq_map, List.map_cons, List.head?_cons]
    norm_num
  have hlast : (List.map (fun i : ℕ => (i : ℚ) + 1/2) (List.range (m + 2))).getLast?
      = some (((m + 1 : ℕ) : ℚ) + 1/2) := by
    rw [range_map_getLast? _ _ (by omega)]
    norm_num
  simp only [hhead, hlast]
  have hshift : (List.map (fun i : ℕ => (i : ℚ) + 1/2) (List.range (m + 2))).map
      (· - (1/2 : ℚ)) = List.map (fun i : ℕ => (i : ℚ)) (List.range (m + 2)) := by
    rw [List.map_map]
    congr 1
    funext i
    simp only [Function.comp]
    ring
  have hd : ((m + 1 : ℕ) : ℚ) + 1/2 - 1/2 = ((m + 1 : ℕ) : ℚ) := by ring
  rw [hshift, hd]
  have hc : (0 : ℚ) < ((m + 1 : ℕ) : ℚ) := by positivity
  rw [interpCall]
  have hXPlen : ((List.map (fun i : ℕ => (i : ℚ)) (List.range (m + 2))).map
      (· / ((m + 1 : ℕ) : ℚ))).length = m + 2 := by simp
  rw [if_neg (by
      intro h
      rw [h] at hXPlen
      simp at hXPlen),
    if_neg (by
      intro h
      exact h (by simp [hsvlen, hm])),
    if_neg (by
      intro hcontra
      rw [decide_eq_false_iff_not] at hcontra
      exact hcontra.1 hc.ne')]
  apply congrArg
  apply List.map_congr_left
  intro q _
  rw [classic_percentile_spec, ← hsv, hm]
  have hcast : ((m + 2 : ℕ) : ℚ) - 1 = ((m + 1 : ℕ) : ℚ) := by push_cast; ring
  rw [hcast, mul_comm q (((m + 1 : ℕ) : ℚ))]
  rw [← npInterpOne_scale (((m + 1 : ℕ) : ℚ)) q hc, scaled_uniform_knots _ hc.ne']

/-- C7, witness: `values = [3,1]`, ones weights, legacy mode at `q = 1/2`
agrees with the classic percentile (both give 2). -/
theorem C7_witness :
    weighted_quantile_1d [3, 1] [1/2] (some (List.replicate 2 1)) false true
      = .ok ([1/2].map (classic_percentile_spec [3, 1])) ∧
    ([1/2].map (classic_percentile_spec [3, 1])) = [2] := by
  constructor
  · exact C7_thm [3, 1] [1/2] (by simp) (by norm_num)
  · norm_num [classic_percentile_spec, npInterpOne, npInterpGo, List.insertionSort,
      List.orderedInsert, List.range_succ]

/-! ## Supporting lemmas for the axis-wise apply -/

theorem getEntry_ofList (r : ℕ) (tl : List (Tensor r)) (i : ℕ) (ix : List ℕ) :
    getEntry (r + 1) (ofList tl) (i :: ix)
      = tl[i]?.bind (fun u => getEntry r u ix) := by
  cases h : tl[i]? with
  | none => simp [getEntry, ofList, h]
  | some u => simp [getEntry, ofList, h]

theorem getEntry_zero_nil (x : ℚ) : getEntry 0 x [] = some x := rfl

theorem getEntry_one (tl : List ℚ) (k : ℕ) :
    getEntry 1 (@ofList 0 tl) [k] = tl[k]? := by
  rw [getEntry_ofList]
  cases h : tl[k]? with
  | none => rfl
  | some u => rfl

theorem tshape_ofList_of_get (r : ℕ) (tl : List (Tensor r)) (u : Tensor r)
    (h : tl[0]? = some u) :
    tshape (r + 1) (ofList tl) = tl.length :: tshape r u := by
  cases tl with
  | nil => simp at h
  | cons v rest =>
      simp at h
      subst h
      rfl

theorem tshape_one (tl : List ℚ) : tshape 1 (@ofList 0 tl) = [tl.length] := by
  cases tl with
  | nil => rfl
  | cons x rest => rfl

theorem isRect_one (tl : List ℚ) : isRect 1 (@ofList 0 tl) = true := by
  cases tl with
  | nil => rfl
  | cons x rest =>
      show (x :: rest).all (fun v => isRect 0 v && decide (tshape 0 v = tshape 0 x)) = true
      simp [isRect, tshape]

theorem isRect_ofList_cons_iff (r : ℕ) (u : Tensor r) (rest : List (Tensor r)) :
    isRect (r + 1) (ofList (u :: rest)) = true
      ↔ ∀ v ∈ u :: rest, isRect r v = true ∧ tshape r v = tshape r u := by
  show ((u :: rest).all fun v => isRect r v && decide (tshape r v = tshape r u)) = true ↔ _
  simp [List.all_eq_true, Bool.and_eq_true, decide_eq_true_iff]

theorem mem_idxProd_cons (n : ℕ) (ns : List ℕ) (ox : List ℕ) :
    ox ∈ idxProd (n :: ns) ↔ ∃ i ox', i < n ∧ ox' ∈ idxProd ns ∧ ox = i :: ox' := by
  simp only [idxProd, List.mem_flatMap, List.mem_map, List.mem_range]
  constructor
  · rintro ⟨i, hi, ox', hox', rfl⟩
    exact ⟨i, ox', hi, hox', rfl⟩
  · rintro ⟨i, ox', hi, hox', rfl⟩
    exact ⟨i, hi, ox', hox', rfl⟩

theorem idxProd_nil_mem (ox : List ℕ) : ox ∈ idxProd [] ↔ ox = [] := by
  simp [idxProd]

theorem transposeT_length {α : Type} (L : ℕ) (m : List (List α)) (d : α) :
    (transposeT L m d).length = L := by
  simp [transposeT]

theorem transposeT_getElem? {α : Type} (L : ℕ) (m : List (List α)) (d : α) (j : ℕ) :
    (transposeT L m d)[j]? = if j < L then some (m.map (fun row => row.getD j d)) else none := by
  simp only [transposeT, List.getElem?_map, List.getElem?_range]
  by_cases h : j < L
  · simp [h]
  · simp [h]
    omega

theorem map_getD_range (t : List ℚ) :
    List.map (fun k => (t[k]?).getD 0) (List.range t.length) = t := by
  induction t with
  | nil => rfl
  | cons a u ih =>
      rw [List.length_cons, List.range_succ_eq_map, List.map_cons, List.map_map]
      have h2 : ((fun k => ((a :: u)[k]?).getD 0) ∘ Nat.succ) = (fun k => (u[k]?).getD 0) := by
        funext k
        simp [Function.comp]
      rw [h2, ih]
      simp

theorem seqRes_map_ok {α β : Type} (g : β → Res α) :
    ∀ (rs : List β), (∀ u ∈ rs, ∃ y, g u = .ok y) →
      ∃ ys : List α, seqRes (rs.map g) = .ok ys ∧ ys.length = rs.length ∧
        ∀ i : ℕ, ∀ u, rs[i]? = some u → ∃ y, g u = .ok y ∧ ys[i]? = some y := by
  intro rs
  induction rs with
  | nil =>
      intro _
      refine ⟨[], rfl, rfl, ?_⟩
      intro i u h
      simp at h
  | cons b t ih =>
      intro h
      obtain ⟨y0, hy0⟩ := h b (by simp)
      obtain ⟨ys, hys, hlen, hent⟩ := ih (fun u hu => h u (by simp [hu]))
      refine ⟨y0 :: ys, ?_, by simp [hlen], ?_⟩
      · simp [List.map_cons, seqRes, hy0, hys]
      · intro i u hu
        cases i with
        | zero =>
            simp at hu
            subst hu
            exact ⟨y0, hy0, by simp⟩
        | succ i' =>
            simp only [List.getElem?_cons_succ] at hu
            obtain ⟨y, hy, hys'⟩ := hent i' u hu
            exact ⟨y, hy, by simpa using hys'⟩

theorem lt_length_of_getElem? {α : Type} (l : List α) (u : α) (i : ℕ)
    (h : l[i]? = some u) : i < l.length := by
  by_contra hc
  rw [List.getElem?_eq_none (Nat.le_of_not_lt hc)] at h
  exact Option.noConfusion h

theorem mem_of_getElem?_eq {α : Type} (l : List α) (u : α) (i : ℕ)
    (h : l[i]? = some u) : u ∈ l := by
  have h2 : i < l.length := lt_length_of_getElem? l u i h
  rw [List.getElem?_eq_getElem h2] at h
  rw [← Option.some_inj.mp h]
  exact List.getElem_mem h2

theorem getElem?_some_of_mem {α : Type} (l : List α) (u : α) (h : u ∈ l) :
    ∃ i : ℕ, l[i]? = some u := by
  obtain ⟨i, hi, rfl⟩ := List.getElem_of_mem h
  exact ⟨i, List.getElem?_eq_getElem hi⟩

theorem getEntry_ofList_some (r : ℕ) (tl : List (Tensor r)) (v : Tensor r) (i : ℕ)
    (ix : List ℕ) (h : tl[i]? = some v) :
    getEntry (r + 1) (ofList tl) (i :: ix) = getEntry r v ix := by
  rw [getEntry_ofList, h]
  rfl

theorem length_of_tshape_cons (r : ℕ) (l : List (Tensor r)) (q : ℕ) (s : List ℕ)
    (h : tshape (r + 1) (ofList l) = q :: s) : l.length = q := by
  cases l with
  | nil =>
      have : (0 : ℕ) = q := by
        have h2 : (0 : ℕ) :: List.replicate r 0 = q :: s := h
        exact (List.cons_eq_cons.mp h2).1
      simpa using this
  | cons u rest =>
      have h2 : (rest.length + 1) :: tshape r u = q :: s := h
      have h3 := (List.cons_eq_cons.mp h2).1
      simpa using h3

theorem rect_entry (r : ℕ) (tl : List (Tensor r)) (v : Tensor r) (i : ℕ)
    (hrect : isRect (r + 1) (ofList tl) = true) (h : tl[i]? = some v) :
    isRect r v = true ∧ tshape (r + 1) (ofList tl) = tl.length :: tshape r v := by
  cases tl with
  | nil => simp at h
  | cons u rest =>
      have hv := mem_of_getElem?_eq _ v i h
      obtain ⟨h1, h2⟩ := (isRect_ofList_cons_iff r u rest).mp hrect v hv
      refine ⟨h1, ?_⟩
      rw [show tshape (r + 1) (ofList (u :: rest))
        = (rest.length + 1) :: tshape r u from rfl, ← h2]
      rfl

theorem lineAt_ofList_succ (r : ℕ) (tl : List (Tensor r)) (v : Tensor r) (i a L : ℕ)
    (ox : List ℕ) (h : tl[i]? = some v) :
    lineAt (r + 1) (ofList tl) (a + 1) L (i :: ox) = lineAt r v a L ox := by
  simp only [lineAt]
  apply List.map_congr_left
  intro k _
  rw [show (i :: ox).insertIdx (a + 1) k = i :: ox.insertIdx a k from rfl]
  rw [getEntry_ofList_some r tl v i _ h]

theorem axisApplyE_succ_succ (f : List ℚ → Res (List ℚ)) (r a : ℕ)
    (tl : List (Tensor (r + 1))) :
    axisApplyE f (r + 2) (a + 1) (ofList tl)
      = match seqRes (tl.map (fun u => axisApplyE f (r + 1) a u)) with
        | .ok ts => .ok (ofList ts)
        | e => resErrCast e := by
  simp only [axisApplyE]
  have hs : seqRes (List.map (fun u => axisApplyE f r.succ a u) (ofList tl))
      = seqRes (List.map (fun u => axisApplyE f (r + 1) a u) tl) := rfl
  rw [hs]
  cases seqRes (List.map (fun u => axisApplyE f (r + 1) a u) tl) <;> rfl

theorem getElem?_getD_of_lt {α : Type} (l : List α) (j : ℕ) (d : α) (h : j < l.length) :
    l[j]? = some (l.getD j d) := by
  rw [List.getD_eq_getElem?_getD, List.getElem?_eq_getElem h]
  rfl

theorem mem_transposeT {α : Type} (L : ℕ) (M : List (List α)) (d : α) (col : List α) :
    col ∈ transposeT L M d ↔ ∃ j, j < L ∧ col = M.map (fun row => row.getD j d) := by
  simp only [transposeT, List.mem_map, List.mem_range]
  constructor
  · rintro ⟨j, hj, rfl⟩
    exact ⟨j, hj, rfl⟩
  · rintro ⟨j, hj, rfl⟩
    exact ⟨j, hj, rfl⟩

theorem isRect_ofList_of_forall (r : ℕ) (tl : List (Tensor r)) (sh : List ℕ)
    (h : ∀ v ∈ tl, isRect r v = true ∧ tshape r v = sh) :
    isRect (r + 1) (ofList tl) = true := by
  cases tl with
  | nil => rfl
  | cons u rest =>
      refine (isRect_ofList_cons_iff r u rest).mpr ?_
      intro v hv
      obtain ⟨h1, h2⟩ := h v hv
      exact ⟨h1, by rw [h2, (h u (List.mem_cons_self u rest)).2]⟩

theorem tshape_getD_zero (r : ℕ) (l : List (Tensor r)) (q : ℕ) (s : List ℕ)
    (hq : 0 < q) (h : tshape (r + 1) (ofList l) = q :: s) :
    tshape r (l.getD 0 (tdefault r)) = s := by
  cases l with
  | nil =>
      have := length_of_tshape_cons r [] q s h
      simp at this
      omega
  | cons w rest =>
      have h2 : (rest.length + 1) :: tshape r w = q :: s := h
      have h3 := (List.cons_eq_cons.mp h2).2
      simpa [List.getD] using h3

theorem lineAt_transposeT_col (r : ℕ) (TL : List (Tensor (r + 1))) (M : List (List (Tensor r)))
    (hM : ∀ k : ℕ, M[k]? = (TL[k]? : Option (List (Tensor r))))
    (j L : ℕ) (ox : List ℕ)
    (hj : ∀ (i : ℕ) (row), TL[i]? = some row → j < (asList row).length) :
    lineAt (r + 1) (@ofList r (M.map (fun row => row.getD j (tdefault r)))) 0 L ox
      = lineAt (r + 2) (ofList TL) 0 L (j :: ox) := by
  simp only [lineAt]
  apply List.map_congr_left
  intro k _
  rw [show ox.insertIdx 0 k = k :: ox from rfl,
      show (j :: ox).insertIdx 0 k = k :: j :: ox from rfl]
  rw [getEntry_ofList r (M.map (fun row => row.getD j (tdefault r))) k ox]
  rw [getEntry_ofList (r + 1) TL k (j :: ox)]
  rw [List.getElem?_map, hM k]
  cases hTL : TL[k]? with
  | none => rfl
  | some row =>
      have hjlt := hj k row hTL
      show (getEntry r ((asList row).getD j (tdefault r)) ox).getD 0
          = (getEntry (r + 1) row (j :: ox)).getD 0
      rw [show getEntry (r + 1) row (j :: ox)
          = getEntry (r + 1) (ofList (asList row)) (j :: ox) from rfl]
      rw [getEntry_ofList_some r (asList row) _ j ox
        (getElem?_getD_of_lt _ j (tdefault r) hjlt)]

theorem tshape_transposeT (r Q : ℕ) (hQ : 0 < Q) (m0 : List (Tensor r))
    (mrest : List (List (Tensor r))) (s : List ℕ)
    (hhead : tshape r (m0.getD 0 (tdefault r)) = s) :
    tshape (r + 2) (@ofList (r + 1) (transposeT Q (m0 :: mrest) (tdefault r)))
      = Q :: (mrest.length + 1) :: s := by
  have h0 : (transposeT Q (m0 :: mrest) (tdefault r))[0]?
      = some ((m0 :: mrest).map (fun row => row.getD 0 (tdefault r))) := by
    rw [transposeT_getElem?]
    rw [if_pos hQ]
  have h0b : (transposeT Q (m0 :: mrest) (tdefault r))[0]?
      = some (@ofList r ((m0 :: mrest).map (fun row => row.getD 0 (tdefault r)))) := h0
  rw [tshape_ofList_of_get (r + 1) (transposeT Q (m0 :: mrest) (tdefault r)) _ h0b]
  have hXlen : @List.length (Tensor (r + 1)) (transposeT Q (m0 :: mrest) (tdefault r)) = Q :=
    transposeT_length Q (m0 :: mrest) (tdefault r)
  rw [hXlen]
  rw [show (m0 :: mrest).map (fun row => row.getD 0 (tdefault r))
      = m0.getD 0 (tdefault r) :: mrest.map (fun row => row.getD 0 (tdefault r)) from rfl]
  rw [show tshape (r + 1) (ofList (m0.getD 0 (tdefault r)
      :: mrest.map (fun row => row.getD 0 (tdefault r))))
    = ((mrest.map (fun row => row.getD 0 (tdefault r))).length + 1)
      :: tshape r (m0.getD 0 (tdefault r)) from rfl]
  rw [List.length_map, hhead]

theorem getElem?_map_of_getElem? {α β : Type} (l : List α) (f : α → β) (j : ℕ) (u : α)
    (h : l[j]? = some u) : (l.map f)[j]? = some (f u) := by
  rw [List.getElem?_map, h]
  rfl

theorem axisApplyE_spec (f : List ℚ → Res (List ℚ)) (Q : ℕ) (hQ : 0 < Q)
    (hf : ∀ line res, f line = .ok res → res.length = Q) :
    ∀ (r : ℕ) (axis : ℕ) (t : Tensor (r + 1)),
      axis < r + 1 →
      isRect (r + 1) t = true →
      (∀ d ∈ tshape (r + 1) t, 0 < d) →
      (∀ ox ∈ idxProd ((tshape (r + 1) t).eraseIdx axis),
        ∃ res, f (lineAt (r + 1) t axis ((tshape (r + 1) t).getD axis 0) ox) = .ok res) →
      ∃ out, axisApplyE f (r + 1) axis t = .ok out ∧
        tshape (r + 1) out = (tshape (r + 1) t).set axis Q ∧
        ∀ ox ∈ idxProd ((tshape (r + 1) t).eraseIdx axis), ∀ k, k < Q →
          ∃ res, f (lineAt (r + 1) t axis ((tshape (r + 1) t).getD axis 0) ox) = .ok res ∧
            getEntry (r + 1) out (ox.insertIdx axis k) = res[k]? := by
  intro r
  induction r with
  | zero =>
      intro axis t hax hrect hpos hok
      interval_cases axis
      obtain ⟨tl, h⟩ : ∃ tl : List ℚ, @ofList 0 tl = t := ⟨t, rfl⟩
      subst h
      have htl : tshape 1 (@ofList 0 tl) = [tl.length] := tshape_one tl
      have hnil : ([] : List ℕ) ∈ idxProd ((tshape 1 (@ofList 0 tl)).eraseIdx 0) := by
        rw [htl]
        simp [idxProd]
      have hline : lineAt 1 (@ofList 0 tl) 0
          ((tshape 1 (@ofList 0 tl)).getD 0 0) [] = tl := by
        rw [htl]
        show List.map (fun k => (getEntry 1 (@ofList 0 tl)
          (List.insertIdx 0 k [])).getD 0) (List.range tl.length) = tl
        calc List.map (fun k => (getEntry 1 (@ofList 0 tl)
              (List.insertIdx 0 k [])).getD 0) (List.range tl.length)
            = List.map (fun k => (tl[k]?).getD 0) (List.range tl.length) := by
              apply List.map_congr_left
              intro k _
              rw [show List.insertIdx 0 k ([] : List ℕ) = [k] from rfl, getEntry_one]
          _ = tl := map_getD_range tl
      obtain ⟨res, hres⟩ := hok [] hnil
      rw [hline] at hres
      refine ⟨@ofList 0 res, ?_, ?_, ?_⟩
      · show f tl = Res.ok (@ofList 0 res)
        exact hres
      · rw [tshape_one, htl, hf _ _ hres]
        rfl
      · intro ox hox' k hk
        have hoxnil : ox = [] := by
          rw [htl] at hox'
          simpa [idxProd] using hox'
        subst hoxnil
        refine ⟨res, by rw [hline]; exact hres, ?_⟩
        rw [show List.insertIdx 0 k ([] : List ℕ) = [k] from rfl, getEntry_one]
  | succ r' ih =>
      intro axis t hax hrect hpos hok
      cases axis with
      | zero =>
          obtain ⟨tl, h⟩ : ∃ l : List (Tensor (r' + 1)), ofList l = t := ⟨t, rfl⟩
          subst h
          cases tl with
          | nil =>
              exact absurd (hpos 0 (by
                rw [show tshape (r' + 2) (ofList ([] : List (Tensor (r' + 1))))
                  = 0 :: List.replicate (r' + 1) 0 from rfl]
                exact List.mem_cons_self 0 _)) (lt_irrefl 0)
          | cons row0 trest =>
              obtain ⟨rl0, h0⟩ : ∃ l : List (Tensor r'), ofList l = row0 := ⟨row0, rfl⟩
              subst h0
              cases rl0 with
              | nil =>
                  exact absurd (hpos 0 (by
                    rw [show tshape (r' + 2) (ofList (ofList ([] : List (Tensor r')) :: trest))
                      = (trest.length + 1) :: 0 :: List.replicate r' 0 from rfl]
                    exact List.mem_cons_of_mem _ (List.mem_cons_self 0 _))) (lt_irrefl 0)
              | cons v00 vrest =>
                  have hshape : tshape (r' + 2) (ofList (ofList (v00 :: vrest) :: trest))
                      = (trest.length + 1) :: (vrest.length + 1) :: tshape r' v00 := rfl
                  have hR := (isRect_ofList_cons_iff (r' + 1) (ofList (v00 :: vrest)) trest).mp hrect
                  have hs_pos : ∀ d ∈ tshape r' v00, 0 < d := by
                    intro d hd
                    exact hpos d (by
                      rw [hshape]
                      exact List.mem_cons_of_mem _ (List.mem_cons_of_mem _ hd))
                  have hrowfact : ∀ (i : ℕ) (row), (ofList (v00 :: vrest) :: trest)[i]? = some row →
                      isRect (r' + 1) row = true ∧
                      tshape (r' + 1) row = (vrest.length + 1) :: tshape r' v00 := by
                    intro i row hi
                    obtain ⟨h1, h2⟩ := hR row (mem_of_getElem?_eq _ row i hi)
                    exact ⟨h1, h2⟩
                  have hrowlen : ∀ (i : ℕ) (row), (ofList (v00 :: vrest) :: trest)[i]? = some row →
                      (asList row).length = vrest.length + 1 := by
                    intro i row hi
                    exact length_of_tshape_cons r' (asList row) _ _ (hrowfact i row hi).2
                  have helem : ∀ (i : ℕ) (row), (ofList (v00 :: vrest) :: trest)[i]? = some row →
                      ∀ (j : ℕ) (w), (asList row)[j]? = some w →
                      isRect r' w = true ∧ tshape r' w = tshape r' v00 := by
                    intro i row hi j w hjw
                    obtain ⟨hw1, hw2⟩ := rect_entry r' (asList row) w j (hrowfact i row hi).1 hjw
                    refine ⟨hw1, ?_⟩
                    have h3 : (asList row).length :: tshape r' w
                        = (vrest.length + 1) :: tshape r' v00 :=
                      hw2.symm.trans (hrowfact i row hi).2
                    exact (List.cons_eq_cons.mp h3).2
                  have hcolshape : ∀ j : ℕ, j < vrest.length + 1 →
                      tshape (r' + 1) (@ofList r' (List.map (fun row => row.getD j (tdefault r'))
                        (ofList (ofList (v00 :: vrest) :: trest) : List (List (Tensor r')))))
                      = (trest.length + 1) :: tshape r' v00 := by
                    intro j hj
                    have hc0 : (List.map (fun row => row.getD j (tdefault r'))
                        (ofList (ofList (v00 :: vrest) :: trest) : List (List (Tensor r'))))[0]?
                        = some ((v00 :: vrest).getD j (tdefault r')) :=
                      getElem?_map_of_getElem?
                        (ofList (ofList (v00 :: vrest) :: trest) : List (List (Tensor r')))
                        (fun row => row.getD j (tdefault r')) 0 (v00 :: vrest)
                        List.getElem?_cons_zero
                    rw [tshape_ofList_of_get r' _ _ hc0]
                    have hlen : (List.map (fun row => row.getD j (tdefault r'))
                        (ofList (ofList (v00 :: vrest) :: trest)
                          : List (List (Tensor r')))).length = trest.length + 1 := by
                      rw [List.length_map]
                      rfl
                    rw [hlen]
                    have hw : tshape r' ((v00 :: vrest).getD j (tdefault r')) = tshape r' v00 :=
                      (helem 0 (ofList (v00 :: vrest)) List.getElem?_cons_zero j _
                        (getElem?_getD_of_lt (v00 :: vrest) j (tdefault r')
                          (by simpa using hj))).2
                    rw [hw]
                  have hrect_col : ∀ j : ℕ, j < vrest.length + 1 →
                      isRect (r' + 1) (@ofList r' (List.map (fun row => row.getD j (tdefault r'))
                        (ofList (ofList (v00 :: vrest) :: trest)
                          : List (List (Tensor r'))))) = true := by
                    intro j hj
                    refine isRect_ofList_of_forall r' _ (tshape r' v00) ?_
                    intro v hv
                    obtain ⟨row, hrow, rfl⟩ := List.mem_map.mp hv
                    obtain ⟨i, hi⟩ := getElem?_some_of_mem _ row hrow
                    have hib : (ofList (v00 :: vrest) :: trest)[i]? = some (@ofList r' row) := hi
                    have hlen2 : row.length = vrest.length + 1 := hrowlen i (@ofList r' row) hib
                    have hjlt : j < row.length := by
                      rw [hlen2]
                      exact hj
                    exact helem i (@ofList r' row) hib j _
                      (getElem?_getD_of_lt row j (tdefault r') hjlt)
                  have hpos_col : ∀ j : ℕ, j < vrest.length + 1 →
                      ∀ d ∈ tshape (r' + 1) (@ofList r'
                        (List.map (fun row => row.getD j (tdefault r'))
                        (ofList (ofList (v00 :: vrest) :: trest)
                          : List (List (Tensor r'))))), 0 < d := by
                    intro j hj d hd
                    rw [hcolshape j hj] at hd
                    rcases List.mem_cons.mp hd with h | h
                    · omega
                    · exact hs_pos d h
                  have hlinecol : ∀ j : ℕ, j < vrest.length + 1 → ∀ (L : ℕ) (ox : List ℕ),
                      lineAt (r' + 1) (@ofList r' (List.map (fun row => row.getD j (tdefault r'))
                        (ofList (ofList (v00 :: vrest) :: trest)
                          : List (List (Tensor r'))))) 0 L ox
                      = lineAt (r' + 2) (ofList (ofList (v00 :: vrest) :: trest)) 0 L (j :: ox) := by
                    intro j hj L ox
                    refine lineAt_transposeT_col r' (ofList (v00 :: vrest) :: trest) _
                      (fun k => rfl) j L ox ?_
                    intro i row hi
                    rw [hrowlen i row hi]
                    exact hj
                  have hcol : ∀ j : ℕ, j < vrest.length + 1 → ∃ out,
                      axisApplyE f (r' + 1) 0 (@ofList r'
                        (List.map (fun row => row.getD j (tdefault r'))
                        (ofList (ofList (v00 :: vrest) :: trest)
                          : List (List (Tensor r'))))) = .ok out ∧
                      tshape (r' + 1) out = Q :: tshape r' v00 ∧
                      ∀ ox ∈ idxProd (tshape r' v00), ∀ k, k < Q →
                        ∃ res, f (lineAt (r' + 2) (ofList (ofList (v00 :: vrest) :: trest)) 0
                            (trest.length + 1) (j :: ox)) = .ok res ∧
                          getEntry (r' + 1) out (k :: ox) = res[k]? := by
                    intro j hj
                    have hok' : ∀ ox ∈ idxProd ((tshape (r' + 1) (@ofList r'
                        (List.map (fun row => row.getD j (tdefault r'))
                        (ofList (ofList (v00 :: vrest) :: trest)
                          : List (List (Tensor r')))))).eraseIdx 0),
                        ∃ res, f (lineAt (r' + 1) (@ofList r'
                          (List.map (fun row => row.getD j (tdefault r'))
                          (ofList (ofList (v00 :: vrest) :: trest)
                            : List (List (Tensor r'))))) 0
                          ((tshape (r' + 1) (@ofList r'
                            (List.map (fun row => row.getD j (tdefault r'))
                            (ofList (ofList (v00 :: vrest) :: trest)
                              : List (List (Tensor r')))))).getD 0 0) ox) = .ok res := by
                      intro ox hox
                      rw [hcolshape j hj] at hox
                      rw [show ((trest.length + 1) :: tshape r' v00).eraseIdx 0
                        = tshape r' v00 from rfl] at hox
                      obtain ⟨res, hres⟩ := hok (j :: ox) (by
                        rw [hshape]
                        rw [show ((trest.length + 1) :: (vrest.length + 1)
                            :: tshape r' v00).eraseIdx 0
                          = (vrest.length + 1) :: tshape r' v00 from rfl]
                        exact (mem_idxProd_cons _ _ _).mpr ⟨j, ox, hj, hox, rfl⟩)
                      refine ⟨res, ?_⟩
                      rw [hcolshape j hj]
                      rw [show (((trest.length + 1) :: tshape r' v00)).getD 0 0
                        = trest.length + 1 from rfl]
                      rw [hlinecol j hj (trest.length + 1) ox]
                      rw [show ((tshape (r' + 2)
                          (ofList (ofList (v00 :: vrest) :: trest))).getD 0 0)
                        = trest.length + 1 from by rw [hshape]; rfl] at hres
                      exact hres
                    obtain ⟨out, h1, h2, h3⟩ := ih 0 (@ofList r'
                        (List.map (fun row => row.getD j (tdefault r'))
                        (ofList (ofList (v00 :: vrest) :: trest)
                          : List (List (Tensor r'))))) (Nat.succ_pos r')
                      (hrect_col j hj) (hpos_col j hj) hok'
                    refine ⟨out, h1, ?_, ?_⟩
                    · rw [hcolshape j hj] at h2
                      rw [h2]
                      rfl
                    · intro ox hox k hk
                      have hox' : ox ∈ idxProd ((tshape (r' + 1) (@ofList r'
                          (List.map (fun row => row.getD j (tdefault r'))
                          (ofList (ofList (v00 :: vrest) :: trest)
                            : List (List (Tensor r')))))).eraseIdx 0) := by
                        rw [hcolshape j hj]
                        exact hox
                      obtain ⟨res, hr1, hr2⟩ := h3 ox hox' k hk
                      refine ⟨res, ?_, ?_⟩
                      · rw [hcolshape j hj] at hr1
                        rw [show (((trest.length + 1) :: tshape r' v00)).getD 0 0
                          = trest.length + 1 from rfl] at hr1
                        rw [hlinecol j hj (trest.length + 1) ox] at hr1
                        exact hr1
                      · rw [show ox.insertIdx 0 k = k :: ox from rfl] at hr2
                        exact hr2
                  have hallok : ∀ col ∈ transposeT (vrest.length + 1)
                      (ofList (ofList (v00 :: vrest) :: trest)) (tdefault r'),
                      ∃ y, (fun col => axisApplyE f (r' + 1) 0 col) col = Res.ok y := by
                    intro col hcolmem
                    obtain ⟨jj, hjj, rfl⟩ := (mem_transposeT _ _ _ col).mp hcolmem
                    obtain ⟨out, hout, _, _⟩ := hcol jj hjj
                    exact ⟨out, hout⟩
                  obtain ⟨ys, hseq, hyslen, hysidx⟩ := seqRes_map_ok
                    (fun col => axisApplyE f (r' + 1) 0 col)
                    (transposeT (vrest.length + 1)
                      (ofList (ofList (v00 :: vrest) :: trest)) (tdefault r')) hallok
                  cases ys with
                  | nil =>
                      exfalso
                      have h4 := hyslen
                      rw [transposeT_length] at h4
                      simp at h4
                  | cons y0 yrest =>
                      have hrs0 : (transposeT (vrest.length + 1)
                          (ofList (ofList (v00 :: vrest) :: trest)) (tdefault r'))[0]?
                          = some (List.map (fun row => row.getD 0 (tdefault r'))
                            (ofList (ofList (v00 :: vrest) :: trest)
                              : List (List (Tensor r')))) := by
                        rw [transposeT_getElem?]
                        rw [if_pos (Nat.succ_pos vrest.length)]
                        rfl
                      obtain ⟨y0', hy0ok, hy0got⟩ := hysidx 0 _ hrs0
                      have hy0eq : y0' = y0 := by
                        rw [List.getElem?_cons_zero] at hy0got
                        exact (Option.some.inj hy0got).symm
                      obtain ⟨out0, hout0, hshape0, _⟩ := hcol 0 (Nat.succ_pos vrest.length)
                      have hy0out : y0 = out0 := by
                        rw [hy0eq] at hy0ok
                        exact Res.ok.inj (hy0ok.symm.trans hout0)
                      have hy0shape : tshape (r' + 1) y0 = Q :: tshape r' v00 := by
                        rw [hy0out]
                        exact hshape0
                      have hy0len : (asList y0).length = Q :=
                        length_of_tshape_cons r' (asList y0) Q (tshape r' v00) hy0shape
                      have hQlen : @headLen (Tensor r') (y0 :: yrest) = Q := hy0len
                      have hL : @headLen (Tensor r')
                          (ofList (ofList (v00 :: vrest) :: trest)) = vrest.length + 1 := rfl
                      refine ⟨transposeT (@headLen (Tensor r') (y0 :: yrest)) (y0 :: yrest)
                        (tdefault r'), ?_, ?_, ?_⟩
                      · simp only [axisApplyE]
                        rw [hL]
                        rw [hseq]
                      · rw [hshape]
                        rw [show ((trest.length + 1) :: (vrest.length + 1)
                            :: tshape r' v00).set 0 Q
                          = Q :: (vrest.length + 1) :: tshape r' v00 from rfl]
                        rw [hQlen]
                        have hhead0 : tshape r' ((asList y0).getD 0 (tdefault r'))
                            = tshape r' v00 :=
                          tshape_getD_zero r' (asList y0) Q (tshape r' v00) hQ hy0shape
                        have htt := tshape_transposeT r' Q hQ (asList y0) yrest
                          (tshape r' v00) hhead0
                        have hyl : yrest.length + 1 = vrest.length + 1 := by
                          have h4 := hyslen
                          rw [transposeT_length] at h4
                          simpa using h4
                        rw [← hyl]
                        exact htt
                      · intro ox hox k hk
                        rw [hshape] at hox
                        rw [show ((trest.length + 1) :: (vrest.length + 1)
                            :: tshape r' v00).eraseIdx 0
                          = (vrest.length + 1) :: tshape r' v00 from rfl] at hox
                        obtain ⟨j, ox2, hjlt, hox2, rfl⟩ := (mem_idxProd_cons _ _ _).mp hox
                        have hrsj : (transposeT (vrest.length + 1)
                            (ofList (ofList (v00 :: vrest) :: trest)) (tdefault r'))[j]?
                            = some (List.map (fun row => row.getD j (tdefault r'))
                              (ofList (ofList (v00 :: vrest) :: trest)
                                : List (List (Tensor r')))) := by
                          rw [transposeT_getElem?]
                          rw [if_pos hjlt]
                          rfl
                        obtain ⟨yj', hyjok, hyjgot⟩ := hysidx j _ hrsj
                        obtain ⟨outj, houtj, hshapej, hentj⟩ := hcol j hjlt
                        have hyjout : yj' = outj := Res.ok.inj (hyjok.symm.trans houtj)
                        obtain ⟨res, hres1, hres2⟩ := hentj ox2 hox2 k hk
                        refine ⟨res, ?_, ?_⟩
                        · rw [show ((tshape (r' + 2)
                              (ofList (ofList (v00 :: vrest) :: trest))).getD 0 0)
                            = trest.length + 1 from by rw [hshape]; rfl]
                          exact hres1
                        · rw [show (j :: ox2).insertIdx 0 k = k :: j :: ox2 from rfl]
                          rw [hQlen]
                          show getEntry (r' + 2) (@ofList (r' + 1) (transposeT Q
                              ((y0 :: yrest) : List (List (Tensor r'))) (tdefault r')))
                            (k :: j :: ox2) = res[k]?
                          have hrk : (transposeT Q ((y0 :: yrest) : List (List (Tensor r')))
                              (tdefault r'))[k]?
                              = some (List.map (fun row => row.getD k (tdefault r'))
                                ((y0 :: yrest) : List (List (Tensor r')))) := by
                            rw [transposeT_getElem?]
                            rw [if_pos hk]
                          have hrkb : (transposeT Q ((y0 :: yrest) : List (List (Tensor r')))
                              (tdefault r'))[k]?
                              = some (@ofList r' (List.map (fun row => row.getD k (tdefault r'))
                                ((y0 :: yrest) : List (List (Tensor r'))))) := hrk
                          rw [getEntry_ofList_some (r' + 1) (transposeT Q
                              ((y0 :: yrest) : List (List (Tensor r'))) (tdefault r'))
                            _ k (j :: ox2) hrkb]
                          rw [getEntry_ofList r' (List.map (fun row => row.getD k (tdefault r'))
                            ((y0 :: yrest) : List (List (Tensor r')))) j ox2]
                          rw [getElem?_map_of_getElem? ((y0 :: yrest) : List (List (Tensor r')))
                            (fun row => row.getD k (tdefault r')) j (asList yj') hyjgot]
                          rw [show (some ((fun row => row.getD k (tdefault r'))
                              (asList yj'))).bind (fun u => getEntry r' u ox2)
                            = getEntry r' ((asList yj').getD k (tdefault r')) ox2 from rfl]
                          have houtjlen : (asList outj).length = Q :=
                            length_of_tshape_cons r' (asList outj) Q (tshape r' v00) hshapej
                          have hstep : getEntry (r' + 1) outj (k :: ox2)
                              = getEntry r' ((asList outj).getD k (tdefault r')) ox2 := by
                            rw [show getEntry (r' + 1) outj (k :: ox2)
                              = getEntry (r' + 1) (ofList (asList outj)) (k :: ox2) from rfl]
                            rw [getEntry_ofList_some r' (asList outj) _ k ox2
                              (getElem?_getD_of_lt (asList outj) k (tdefault r')
                                (by rw [houtjlen]; exact hk))]
                          rw [hyjout]
                          rw [hstep] at hres2
                          exact hres2
      | succ a =>
          obtain ⟨tl, h⟩ : ∃ l : List (Tensor (r' + 1)), ofList l = t := ⟨t, rfl⟩
          subst h
          cases tl with
          | nil =>
              exact absurd (hpos 0 (by
                rw [show tshape (r' + 2) (ofList ([] : List (Tensor (r' + 1))))
                  = 0 :: List.replicate (r' + 1) 0 from rfl]
                exact List.mem_cons_self 0 _)) (lt_irrefl 0)
          | cons row0 trest =>
              have hax' : a < r' + 1 := Nat.succ_lt_succ_iff.mp hax
              have hshape : tshape (r' + 2) (ofList (row0 :: trest))
                  = (trest.length + 1) :: tshape (r' + 1) row0 := rfl
              have hR := (isRect_ofList_cons_iff (r' + 1) row0 trest).mp hrect
              have hposS : ∀ d ∈ tshape (r' + 1) row0, 0 < d := by
                intro d hd
                exact hpos d (by rw [hshape]; exact List.mem_cons_of_mem _ hd)
              have hslice : ∀ u ∈ row0 :: trest, ∃ out,
                  axisApplyE f (r' + 1) a u = .ok out ∧
                  tshape (r' + 1) out = (tshape (r' + 1) u).set a Q ∧
                  ∀ ox ∈ idxProd ((tshape (r' + 1) u).eraseIdx a), ∀ k, k < Q →
                    ∃ res, f (lineAt (r' + 1) u a
                      ((tshape (r' + 1) u).getD a 0) ox) = .ok res ∧
                      getEntry (r' + 1) out (ox.insertIdx a k) = res[k]? := by
                intro u hu
                obtain ⟨hu1, hu2⟩ := hR u hu
                obtain ⟨i, hi⟩ := getElem?_some_of_mem _ u hu
                have hilt : i < trest.length + 1 := by
                  have := lt_length_of_getElem? _ u i hi
                  simpa using this
                refine ih a u hax' hu1 (by rw [hu2]; exact hposS) ?_
                intro ox hox
                have hmem : (i :: ox) ∈ idxProd ((tshape (r' + 2)
                    (ofList (row0 :: trest))).eraseIdx (a + 1)) := by
                  rw [hshape]
                  rw [show ((trest.length + 1) :: tshape (r' + 1) row0).eraseIdx (a + 1)
                    = (trest.length + 1) :: (tshape (r' + 1) row0).eraseIdx a from rfl]
                  refine (mem_idxProd_cons _ _ _).mpr ⟨i, ox, hilt, ?_, rfl⟩
                  rw [← hu2]
                  exact hox
                obtain ⟨res, hres⟩ := hok (i :: ox) hmem
                refine ⟨res, ?_⟩
                rw [show ((tshape (r' + 2) (ofList (row0 :: trest))).getD (a + 1) 0)
                  = (tshape (r' + 1) row0).getD a 0 from by rw [hshape]; rfl] at hres
                rw [lineAt_ofList_succ (r' + 1) (row0 :: trest) u i a _ ox hi] at hres
                rw [show (tshape (r' + 1) u).getD a 0
                  = (tshape (r' + 1) row0).getD a 0 from by rw [hu2]]
                exact hres
              have hallok : ∀ u ∈ row0 :: trest, ∃ y,
                  axisApplyE f (r' + 1) a u = .ok y := by
                intro u hu
                obtain ⟨out, hout, _, _⟩ := hslice u hu
                exact ⟨out, hout⟩
              obtain ⟨ys, hseq, hyslen, hysidx⟩ :=
                seqRes_map_ok (fun u => axisApplyE f (r' + 1) a u) (row0 :: trest) hallok
              refine ⟨ofList ys, ?_, ?_, ?_⟩
              · rw [axisApplyE_succ_succ, hseq]
              · obtain ⟨y0, hy0ok, hy0⟩ := hysidx 0 row0 List.getElem?_cons_zero
                obtain ⟨out0, hout0, hshape0, _⟩ := hslice row0 (List.mem_cons_self _ _)
                have hy0out : y0 = out0 := Res.ok.inj (hy0ok.symm.trans hout0)
                rw [hshape]
                rw [show ((trest.length + 1) :: tshape (r' + 1) row0).set (a + 1) Q
                  = (trest.length + 1) :: (tshape (r' + 1) row0).set a Q from rfl]
                rw [tshape_ofList_of_get (r' + 1) ys y0 hy0]
                rw [hyslen, hy0out, hshape0]
                rfl
              · intro ox hox k hk
                rw [hshape] at hox
                rw [show ((trest.length + 1) :: tshape (r' + 1) row0).eraseIdx (a + 1)
                  = (trest.length + 1) :: (tshape (r' + 1) row0).eraseIdx a from rfl] at hox
                obtain ⟨i, ox', hilt, hox', rfl⟩ := (mem_idxProd_cons _ _ _).mp hox
                obtain ⟨u, hu⟩ : ∃ u, (row0 :: trest)[i]? = some u :=
                  ⟨_, List.getElem?_eq_getElem (by simpa using hilt)⟩
                obtain ⟨out_i, hout_i, hshape_i, hent_i⟩ :=
                  hslice u (mem_of_getElem?_eq _ u i hu)
                obtain ⟨y_i, hyok_i, hys_i⟩ := hysidx i u hu
                have hyeq : y_i = out_i := Res.ok.inj (hyok_i.symm.trans hout_i)
                obtain ⟨hu1, hu2⟩ := hR u (mem_of_getElem?_eq _ u i hu)
                obtain ⟨res, hfres, hent⟩ := hent_i ox' (by rw [hu2]; exact hox') k hk
                refine ⟨res, ?_, ?_⟩
                · rw [show ((tshape (r' + 2) (ofList (row0 :: trest))).getD (a + 1) 0)
                    = (tshape (r' + 1) row0).getD a 0 from by rw [hshape]; rfl]
                  rw [lineAt_ofList_succ (r' + 1) (row0 :: trest) u i a _ ox' hu]
                  rw [show (tshape (r' + 1) row0).getD a 0
                    = (tshape (r' + 1) u).getD a 0 from by rw [hu2]]
                  exact hfres
                · rw [show (i :: ox').insertIdx (a + 1) k = i :: ox'.insertIdx a k from rfl]
                  rw [getEntry_ofList_some (r' + 1) ys y_i i _ hys_i]
                  rw [hyeq]
                  exact hent

/-! ## C8: axis batching of the N-D estimator -/

theorem interpCall_ok_length (quantiles xp fp : List ℚ) (b : Bool) (res : List ℚ)
    (h : interpCall quantiles xp fp b = .ok res) : res.length = quantiles.length := by
  simp only [interpCall] at h
  split_ifs at h
  exact (Res.ok.inj h) ▸ List.length_map _ _

theorem finishQuantile_ok_length (v w quantiles : List ℚ) (os : Bool) (res : List ℚ)
    (h : finishQuantile v w quantiles os = .ok res) : res.length = quantiles.length := by
  cases os with
  | false =>
      simp only [finishQuantile, Bool.false_eq_true, if_false] at h
      exact interpCall_ok_length _ _ _ _ _ h
  | true =>
      simp only [finishQuantile, if_true] at h
      cases h1 : (wqPositions w).head? with
      | none => rw [h1] at h; cases h2 : (wqPositions w).getLast? <;> rw [h2] at h <;> cases h
      | some p0 =>
          rw [h1] at h
          cases h2 : (wqPositions w).getLast? with
          | none => rw [h2] at h; cases h
          | some plast =>
              rw [h2] at h
              exact interpCall_ok_length _ _ _ _ _ h

theorem wq1d_ok_length (values quantiles : List ℚ) (sw : Option (List ℚ)) (vs os : Bool)
    (res : List ℚ) (h : weighted_quantile_1d values quantiles sw vs os = .ok res) :
    res.length = quantiles.length := by
  simp only [weighted_quantile_1d] at h
  split_ifs at h
  · exact finishQuantile_ok_length _ _ _ _ _ h
  · exact finishQuantile_ok_length _ _ _ _ _ h

/-- C8 -/
theorem C8_thm :
    (∀ (values quantiles : List ℚ) (sw : Option (List ℚ)) (vs os : Bool) (axis : Option ℕ),
      weighted_quantile 1 (@ofList 0 values) quantiles sw vs os axis
        = weighted_quantile_1d values quantiles sw vs os) ∧
    (∀ (r axis : ℕ) (t : Tensor (r + 2)) (quantiles : List ℚ) (sw : Option (List ℚ))
      (vs os : Bool),
      axis < r + 2 →
      isRect (r + 2) t = true →
      (∀ d ∈ tshape (r + 2) t, 0 < d) →
      0 < quantiles.length →
      (∀ ox ∈ idxProd ((tshape (r + 2) t).eraseIdx axis),
        ∃ res, weighted_quantile_1d
          (lineAt (r + 2) t axis ((tshape (r + 2) t).getD axis 0) ox)
          quantiles sw vs os = .ok res) →
      ∃ out, weighted_quantile (r + 2) t quantiles sw vs os (some axis) = .ok out ∧
        tshape (r + 2) out = (tshape (r + 2) t).set axis quantiles.length ∧
        ∀ ox ∈ idxProd ((tshape (r + 2) t).eraseIdx axis), ∀ k, k < quantiles.length →
          ∃ res, weighted_quantile_1d
            (lineAt (r + 2) t axis ((tshape (r + 2) t).getD axis 0) ox)
            quantiles sw vs os = .ok res ∧
            getEntry (r + 2) out (ox.insertIdx axis k) = res[k]?) := by
  constructor
  · intro values quantiles sw vs os axis
    cases axis <;> rfl
  · intro r axis t quantiles sw vs os hax hrect hpos hQ hok
    obtain ⟨out, h1, h2, h3⟩ := axisApplyE_spec
      (fun line => weighted_quantile_1d line quantiles sw vs os) quantiles.length hQ
      (fun line res hr => wq1d_ok_length line quantiles sw vs os res hr)
      (r + 1) axis t hax hrect hpos hok
    exact ⟨out, h1, h2, h3⟩

/-- C8 witness -/
theorem C8_witness :
    ∃ out, weighted_quantile 2 (([[1, 2], [3, 4]] : List (List ℚ)) : Tensor 2)
        [(1 : ℚ)/2] none false false (some 0) = .ok out ∧
      tshape 2 out = [1, 2] ∧
      ∀ ox ∈ idxProd [2], ∀ k, k < 1 →
        ∃ res, weighted_quantile_1d
            (lineAt 2 (([[1, 2], [3, 4]] : List (List ℚ)) : Tensor 2) 0 2 ox)
            [(1 : ℚ)/2] none false false = .ok res ∧
          getEntry 2 out (ox.insertIdx 0 k) = res[k]? := by
  exact C8_thm.2 0 0 ([[1, 2], [3, 4]] : List (List ℚ)) [(1 : ℚ)/2] none false false
    (by decide) rfl (by decide) (by decide)
    (by
      intro ox hox
      have h2 : idxProd ((tshape 2 (([[1, 2], [3, 4]] : List (List ℚ)) : Tensor 2)).eraseIdx 0)
          = [[0], [1]] := rfl
      rw [h2] at hox
      simp only [List.mem_cons, List.mem_singleton, List.not_mem_nil, or_false] at hox
      rcases hox with rfl | rfl
      · refine ⟨[2], ?_⟩
        rw [show lineAt 2 (([[1, 2], [3, 4]] : List (List ℚ)) : Tensor 2) 0
          ((tshape 2 (([[1, 2], [3, 4]] : List (List ℚ)) : Tensor 2)).getD 0 0) [0]
          = [(1 : ℚ), 3] from rfl]
        norm_num [weighted_quantile_1d, sortPairs, finishQuantile, interpCall, wqPositions,
          cumsum, npInterpOne, npInterpGo, pairLE, List.insertionSort, List.orderedInsert]
        intro hx
        exact absurd hx (List.cons_ne_nil _ _)
      · refine ⟨[3], ?_⟩
        rw [show lineAt 2 (([[1, 2], [3, 4]] : List (List ℚ)) : Tensor 2) 0
          ((tshape 2 (([[1, 2], [3, 4]] : List (List ℚ)) : Tensor 2)).getD 0 0) [1]
          = [(2 : ℚ), 4] from rfl]
        norm_num [weighted_quantile_1d, sortPairs, finishQuantile, interpCall, wqPositions,
          cumsum, npInterpOne, npInterpGo, pairLE, List.insertionSort, List.orderedInsert]
        intro hx
        exact absurd hx (List.cons_ne_nil _ _))

/-- C9 -/
theorem C9_thm (r : ℕ) (data : XArray r) (quantiles : List ℚ)
    (sample_weight : List (String × ℚ)) (dim : String) (vs : Bool) (axis : ℕ)
    (haxis : data.dims.indexOf? dim = some axis)
    (hcoords : ∀ c ∈ data.dims, (data.coords.lookup c).isSome = true)
    (ls : List String) (hdim : data.coords.lookup dim = some (CoordVals.labels ls))
    (l : String) (hl : l ∈ ls) (hmiss : sample_weight.lookup l = none) :
    weighted_quantile_xr r data quantiles sample_weight dim vs = .keyError := by
  have hall : ((data.dims.filter (fun c => decide (c ∈ data.dims.take axis
      ++ "quantile" :: data.dims.drop (axis + 1)))).all
      (fun c => (data.coords.lookup c).isSome)) = true := by
    rw [List.all_eq_true]
    intro c hc
    exact hcoords c (List.mem_of_mem_filter hc)
  have hks : seriesLoc sample_weight ls = .keyError := by
    have hnot : (ls.all (fun l => (sample_weight.lookup l).isSome)) = false := by
      refine Bool.eq_false_iff.mpr ?_
      intro hall2
      have := List.all_eq_true.mp hall2 l hl
      rw [hmiss] at this
      simp at this
    rw [seriesLoc, hnot]
    simp
  simp only [weighted_quantile_xr, haxis]
  rw [if_pos hall]
  simp only [hdim, hks]
  rfl

/-- C9 witness -/
theorem C9_witness :
    weighted_quantile_xr 1
      ⟨["region"], [("region", CoordVals.labels ["a", "b"])], ([1, 2] : List ℚ)⟩
      [(1 : ℚ)/2] [("a", (1 : ℚ))] "region" false = .keyError := by
  refine C9_thm 1 _ [(1 : ℚ)/2] [("a", (1 : ℚ))] "region" false 0 ?_ ?_ ["a", "b"] ?_ "b" ?_ ?_
  · rfl
  · decide
  · rfl
  · decide
  · rfl
